import Mathlib

/-!
Verification of the rag-scraping pipeline core against its specification.

Strings are modelled as `List Char`; Python string operations used by the
pipeline (`str.replace`, `str.strip`, `str.rfind`, `str.split`, `re.sub`
with the concrete patterns appearing in the source, substring membership)
are embedded as executable Lean functions below.  Each pipeline function is
translated from `src/rag_scraping` of the repository; line references in
the doc comments point into that source.
-/

set_option maxRecDepth 4000

namespace RagScraping

/-- Python `str.isspace` / whitespace stripped by `str.strip()`, restricted
to the whitespace code points (ASCII whitespace plus the Unicode space
characters Python treats as whitespace). -/
def pyIsSpace (c : Char) : Bool :=
  c = ' ' || c = '\t' || c = '\n' || c = '\r' ||
  c = '\x0b' || c = '\x0c' ||
  c = '\x1c' || c = '\x1d' || c = '\x1e' || c = '\x1f' ||
  c = '\x85' || c = '\xa0' ||
  c = ' ' ||
  ((' ' : Char) ≤ c && c ≤ (' ' : Char)) ||
  c = ' ' || c = ' ' || c = ' ' || c = ' ' ||
  c = '　'

/-- Python `s.strip(chars)` generalised over a character predicate:
drop matching characters from both ends. -/
def stripP (p : Char → Bool) (l : List Char) : List Char :=
  ((l.dropWhile p).reverse.dropWhile p).reverse

/-- Python `s.strip()` (no argument): strip whitespace from both ends. -/
def pyStrip (l : List Char) : List Char := stripP pyIsSpace l

/-- Python `s.strip('_')`. -/
def stripUnd (l : List Char) : List Char := stripP (· = '_') l

/-- Python `s.replace(pat, rep)`: leftmost, non-overlapping replacement of
every occurrence of `pat` by `rep` (for the non-empty patterns the source
uses; on the empty pattern this model is the identity). -/
def pyReplaceF (pat rep : List Char) : Nat → List Char → List Char
  | _, [] => []
  | 0, l => l
  | fuel + 1, c :: cs =>
    if pat ≠ [] ∧ pat.isPrefixOf (c :: cs) then
      rep ++ pyReplaceF pat rep fuel (cs.drop (pat.length - 1))
    else
      c :: pyReplaceF pat rep fuel cs

def pyReplace (pat rep l : List Char) : List Char :=
  pyReplaceF pat rep l.length l

theorem pyReplaceF_nil (pat rep : List Char) (fuel : Nat) :
    pyReplaceF pat rep fuel [] = [] := by
  cases fuel <;> rfl

theorem pyReplaceF_congr (pat rep : List Char) :
    ∀ f1 f2 (l : List Char), l.length ≤ f1 → l.length ≤ f2 →
      pyReplaceF pat rep f1 l = pyReplaceF pat rep f2 l := by
  intro f1
  induction f1 with
  | zero =>
    intro f2 l h1 _
    have hl : l = [] := List.eq_nil_of_length_eq_zero (by omega)
    subst hl
    rw [pyReplaceF_nil, pyReplaceF_nil]
  | succ f ih =>
    intro f2 l h1 h2
    cases l with
    | nil => rw [pyReplaceF_nil, pyReplaceF_nil]
    | cons c cs =>
      cases f2 with
      | zero => simp at h2
      | succ g =>
        simp only [pyReplaceF]
        simp only [List.length_cons] at h1 h2
        split
        · congr 1
          have hd : (cs.drop (pat.length - 1)).length ≤ cs.length := by
            rw [List.length_drop]; omega
          exact ih g _ (by omega) (by omega)
        · congr 1
          exact ih g cs (by omega) (by omega)

theorem pyReplace_cons (pat rep : List Char) (c : Char) (cs : List Char) :
    pyReplace pat rep (c :: cs) =
      if pat ≠ [] ∧ pat.isPrefixOf (c :: cs) then
        rep ++ pyReplace pat rep (cs.drop (pat.length - 1))
      else
        c :: pyReplace pat rep cs := by
  show pyReplaceF pat rep (cs.length + 1) (c :: cs) = _
  simp only [pyReplaceF]
  split
  · congr 1
    exact pyReplaceF_congr pat rep cs.length _ _
      (by rw [List.length_drop]; omega) le_rfl
  · rfl

theorem len_dropWhile_le (p : Char → Bool) (l : List Char) :
    (l.dropWhile p).length ≤ l.length :=
  (List.dropWhile_suffix p).sublist.length_le

/-- Python `re.sub(a+, a, s)` for a single character class element `a`
(the source uses it as `re.sub(r' +', ' ', ...)` and
`re.sub(r'_+', '_', ...)`): collapse each maximal run of `a` to one `a`. -/
def collapseRunsF (a : Char) : Nat → List Char → List Char
  | _, [] => []
  | 0, l => l
  | fuel + 1, c :: cs =>
    if c = a then a :: collapseRunsF a fuel (cs.dropWhile (· = a))
    else c :: collapseRunsF a fuel cs

def collapseRuns (a : Char) (l : List Char) : List Char :=
  collapseRunsF a l.length l

theorem collapseRunsF_nil (a : Char) (fuel : Nat) :
    collapseRunsF a fuel [] = [] := by
  cases fuel <;> rfl

theorem collapseRunsF_congr (a : Char) :
    ∀ f1 f2 (l : List Char), l.length ≤ f1 → l.length ≤ f2 →
      collapseRunsF a f1 l = collapseRunsF a f2 l := by
  intro f1
  induction f1 with
  | zero =>
    intro f2 l h1 _
    have hl : l = [] := List.eq_nil_of_length_eq_zero (by omega)
    subst hl
    rw [collapseRunsF_nil, collapseRunsF_nil]
  | succ f ih =>
    intro f2 l h1 h2
    cases l with
    | nil => rw [collapseRunsF_nil, collapseRunsF_nil]
    | cons c cs =>
      cases f2 with
      | zero => simp at h2
      | succ g =>
        simp only [collapseRunsF]
        simp only [List.length_cons] at h1 h2
        have hd := len_dropWhile_le (fun x => decide (x = a)) cs
        split
        · congr 1
          exact ih g _ (by omega) (by omega)
        · congr 1
          exact ih g cs (by omega) (by omega)

theorem collapseRuns_cons (a : Char) (c : Char) (cs : List Char) :
    collapseRuns a (c :: cs) =
      if c = a then a :: collapseRuns a (cs.dropWhile (· = a))
      else c :: collapseRuns a cs := by
  show collapseRunsF a (cs.length + 1) (c :: cs) = _
  simp only [collapseRunsF]
  have hd := len_dropWhile_le (fun x => decide (x = a)) cs
  split
  · congr 1
    exact collapseRunsF_congr a cs.length _ _ (by omega) le_rfl
  · rfl

/-- Python `s.rfind(pat)` restricted to a found result: the largest index
at which `pat` occurs in `l`, as an `Option` (`none` models Python's `-1`). -/
def rfindList (pat l : List Char) : Option Nat :=
  ((List.range (l.length + 1)).filter (fun i => pat.isPrefixOf (l.drop i))).getLast?

/-- Python `s.split()` (no argument): maximal runs of non-whitespace, with
no empty words. -/
def pySplitWsF : Nat → List Char → List (List Char)
  | 0, _ => []
  | fuel + 1, l =>
    match l.dropWhile pyIsSpace with
    | [] => []
    | c :: cs =>
      (c :: cs.takeWhile (fun d => !pyIsSpace d)) ::
        pySplitWsF fuel (cs.dropWhile (fun d => !pyIsSpace d))

def pySplitWs (l : List Char) : List (List Char) :=
  pySplitWsF l.length l

/-- Sentence terminator characters, the class `[.!?]` of the source's
`re.split(r'[.!?]+', chunk_text)`. -/
def isSentTerm (c : Char) : Bool := c = '.' || c = '!' || c = '?'

/-- Python `re.split(r'[.!?]+', s)`: the pieces of `s` between maximal runs
of sentence terminators (empty pieces at the borders included, as in
Python). -/
def reSplitTermF : Nat → List Char → List (List Char)
  | 0, l => [l.takeWhile (fun c => !isSentTerm c)]
  | fuel + 1, l =>
    match l.dropWhile (fun c => !isSentTerm c) with
    | [] => [l.takeWhile (fun c => !isSentTerm c)]
    | _ :: cs =>
      l.takeWhile (fun c => !isSentTerm c) ::
        reSplitTermF fuel (cs.dropWhile isSentTerm)

def reSplitTerm (l : List Char) : List (List Char) :=
  reSplitTermF l.length l

/-- Python substring membership `pat in s`: `pat` occurs contiguously in
`l` at some position. -/
def pyContains (l pat : List Char) : Bool :=
  (List.range (l.length + 1)).any (fun i => pat.isPrefixOf (l.drop i))

/-- Python `s.lower()` (the strings it is applied to in the verified code
paths are compared against ASCII phrases). -/
def pyLower (l : List Char) : List Char := l.map Char.toLower

theorem stripP_length_le (p : Char → Bool) (l : List Char) :
    (stripP p l).length ≤ l.length := by
  unfold stripP
  have h1 := len_dropWhile_le p l
  have h2 := len_dropWhile_le p (l.dropWhile p).reverse
  simp only [List.length_reverse] at h2 ⊢
  omega

theorem head?_dropWhile {p : Char → Bool} {l : List Char} {c : Char}
    (h : (l.dropWhile p).head? = some c) : p c = false := by
  have := List.head?_dropWhile_not p l
  rw [h] at this
  exact this

theorem dropWhile_eq_self_of_head? {p : Char → Bool} {l : List Char}
    (h : ∀ c, l.head? = some c → p c = false) : l.dropWhile p = l := by
  cases l with
  | nil => rfl
  | cons c cs =>
    rw [List.dropWhile_cons_of_neg]
    simp [h c rfl]

theorem stripP_head? {p : Char → Bool} {l : List Char} {c : Char}
    (h : (stripP p l).head? = some c) : p c = false := by
  unfold stripP at h
  rw [List.head?_reverse] at h
  obtain ⟨t, ht⟩ := @List.dropWhile_suffix Char ((l.dropWhile p).reverse) p
  have hgl : ((l.dropWhile p).reverse).getLast? = some c := by
    rw [← ht, List.getLast?_append, h]
    rfl
  rw [List.getLast?_reverse] at hgl
  exact head?_dropWhile hgl

theorem stripP_getLast? {p : Char → Bool} {l : List Char} {c : Char}
    (h : (stripP p l).getLast? = some c) : p c = false := by
  unfold stripP at h
  rw [List.getLast?_reverse] at h
  exact head?_dropWhile h

theorem stripP_idem (p : Char → Bool) (l : List Char) :
    stripP p (stripP p l) = stripP p l := by
  have h1 : (stripP p l).dropWhile p = stripP p l :=
    dropWhile_eq_self_of_head? (fun c h => stripP_head? h)
  have h2 : ((stripP p l).reverse).dropWhile p = (stripP p l).reverse := by
    apply dropWhile_eq_self_of_head?
    intro c h
    rw [List.head?_reverse] at h
    exact stripP_getLast? h
  show ((((stripP p l).dropWhile p).reverse).dropWhile p).reverse = stripP p l
  rw [h1, h2, List.reverse_reverse]

theorem singleton_prefix_cond (a c : Char) (cs : List Char) :
    (([a] : List Char) ≠ [] ∧ List.isPrefixOf [a] (c :: cs) = true) ↔ c = a := by
  constructor
  · rintro ⟨_, h⟩
    simp [List.isPrefixOf] at h
    exact h.symm
  · intro h
    subst h
    exact ⟨by simp, by simp [List.isPrefixOf]⟩

theorem pyReplace_single_del (a : Char) (l : List Char) :
    pyReplace [a] [] l = l.filter (fun c => !(c == a)) := by
  induction l with
  | nil => rfl
  | cons c cs ih =>
    rw [pyReplace_cons]
    by_cases hc : c = a
    · rw [if_pos ((singleton_prefix_cond a c cs).mpr hc)]
      rw [List.filter_cons]
      simp [hc, ih]
    · rw [if_neg (fun hcond => hc ((singleton_prefix_cond a c cs).mp hcond))]
      rw [List.filter_cons]
      simp [hc, ih]

theorem pyReplace_single_map (a b : Char) (l : List Char) :
    pyReplace [a] [b] l = l.map (fun c => if c = a then b else c) := by
  induction l with
  | nil => rfl
  | cons c cs ih =>
    rw [pyReplace_cons]
    by_cases hc : c = a
    · rw [if_pos ((singleton_prefix_cond a c cs).mpr hc)]
      simp only [List.map, if_pos hc]
      simpa using ih
    · rw [if_neg (fun hcond => hc ((singleton_prefix_cond a c cs).mp hcond))]
      simp only [List.map, if_neg hc]
      rw [ih]

theorem pyReplace_no_occur (p : Char) (ps rep : List Char) :
    ∀ l : List Char, p ∉ l → pyReplace (p :: ps) rep l = l := by
  intro l
  induction l with
  | nil => intro _; rfl
  | cons c cs ih =>
    intro h
    rw [pyReplace_cons]
    rw [if_neg]
    · rw [ih (fun hm => h (List.mem_cons_of_mem c hm))]
    · intro hcond
      have := hcond.2
      simp only [List.isPrefixOf, Bool.and_eq_true, beq_iff_eq] at this
      exact h (this.1 ▸ List.mem_cons_self c cs)

theorem mem_pyReplace {pat rep : List Char} {c : Char} {l : List Char}
    (h : c ∈ pyReplace pat rep l) : c ∈ rep ∨ c ∈ l := by
  suffices hfuel : ∀ n (m : List Char), m.length ≤ n →
      c ∈ pyReplace pat rep m → c ∈ rep ∨ c ∈ m by
    exact hfuel l.length l le_rfl h
  intro n
  induction n with
  | zero =>
    intro m hm hmem
    cases m with
    | nil => rw [show pyReplace pat rep [] = [] from rfl] at hmem; simp at hmem
    | cons d ds => simp at hm
  | succ n ih =>
    intro m hm hmem
    cases m with
    | nil => rw [show pyReplace pat rep [] = [] from rfl] at hmem; simp at hmem
    | cons d ds =>
      rw [pyReplace_cons] at hmem
      split at hmem
      · rcases List.mem_append.mp hmem with hr | hrec
        · exact Or.inl hr
        · have hlen : (ds.drop (pat.length - 1)).length ≤ n := by
            simp only [List.length_drop]
            simp only [List.length_cons] at hm
            omega
          rcases ih _ hlen hrec with hr | hmm
          · exact Or.inl hr
          · exact Or.inr (List.mem_cons_of_mem d ((List.drop_subset _ ds) hmm))
      · rcases List.mem_cons.mp hmem with he | hrec
        · exact Or.inr (he ▸ List.mem_cons_self d ds)
        · have hlen : ds.length ≤ n := by
            simp only [List.length_cons] at hm; omega
          rcases ih _ hlen hrec with hr | hmm
          · exact Or.inl hr
          · exact Or.inr (List.mem_cons_of_mem d hmm)

theorem mem_collapseRuns {a : Char} {l : List Char} {c : Char}
    (h : c ∈ collapseRuns a l) : c ∈ l := by
  suffices hfuel : ∀ n (m : List Char), m.length ≤ n →
      c ∈ collapseRuns a m → c ∈ m by
    exact hfuel l.length l le_rfl h
  intro n
  induction n with
  | zero =>
    intro m hm hmem
    cases m with
    | nil => rw [show collapseRuns a [] = [] from rfl] at hmem; simp at hmem
    | cons d ds => simp at hm
  | succ n ih =>
    intro m hm hmem
    cases m with
    | nil => rw [show collapseRuns a [] = [] from rfl] at hmem; simp at hmem
    | cons d ds =>
      rw [collapseRuns_cons] at hmem
      split at hmem
      next hd =>
        rcases List.mem_cons.mp hmem with he | hrec
        · exact he ▸ hd ▸ List.mem_cons_self d ds
        · have hlen : (ds.dropWhile (· = a)).length ≤ n := by
            have := len_dropWhile_le (fun c => decide (c = a)) ds
            simp only [List.length_cons] at hm
            omega
          exact List.mem_cons_of_mem d
            (((@List.dropWhile_suffix Char ds (· = a)).sublist.subset)
              (ih _ hlen hrec))
      next hd =>
        rcases List.mem_cons.mp hmem with he | hrec
        · exact he ▸ List.mem_cons_self d ds
        · have hlen : ds.length ≤ n := by
            simp only [List.length_cons] at hm; omega
          exact List.mem_cons_of_mem d (ih _ hlen hrec)

theorem stripP_within (p : Char → Bool) (l : List Char) : stripP p l <:+: l := by
  have h1 : stripP p l <+: l.dropWhile p := by
    rw [stripP]
    have := @List.dropWhile_suffix Char ((l.dropWhile p).reverse) p
    rw [← List.reverse_prefix] at this
    simpa using this
  exact h1.isInfix.trans (List.dropWhile_suffix p).isInfix

theorem mem_stripP {p : Char → Bool} {l : List Char} {c : Char}
    (h : c ∈ stripP p l) : c ∈ l :=
  (stripP_within p l).sublist.subset h

/-- Head of a collapsed-runs list equals the head of the input. -/
theorem collapseRuns_head? (a : Char) (l : List Char) :
    (collapseRuns a l).head? = l.head? := by
  cases l with
  | nil => rfl
  | cons c cs =>
    rw [collapseRuns_cons]
    split
    next hd => simp [hd]
    next hd => simp

theorem collapseRuns_no_double (a : Char) (l : List Char) :
    ¬ ([a, a] <:+: collapseRuns a l) := by
  suffices hfuel : ∀ n (m : List Char), m.length ≤ n →
      ¬ ([a, a] <:+: collapseRuns a m) by
    exact hfuel l.length l le_rfl
  intro n
  induction n with
  | zero =>
    intro m hm
    cases m with
    | nil => rw [show collapseRuns a [] = [] from rfl]; simp
    | cons d ds => simp at hm
  | succ n ih =>
    intro m hm
    cases m with
    | nil => rw [show collapseRuns a [] = [] from rfl]; simp
    | cons d ds =>
      rw [collapseRuns_cons]
      split
      next hd =>
        intro hinf
        rcases List.infix_cons_iff.mp hinf with hpre | hinf2
        · obtain ⟨t, ht⟩ := hpre
          have htail := congrArg List.tail ht
          simp only [List.cons_append, List.tail_cons] at htail
          have hh : (collapseRuns a (ds.dropWhile (· = a))).head? = some a := by
            rw [← htail]
            simp
          rw [collapseRuns_head? a _] at hh
          cases hdw : (ds.dropWhile (· = a)) with
          | nil => rw [hdw] at hh; simp at hh
          | cons x xs =>
            rw [hdw] at hh
            simp only [List.head?_cons, Option.some.injEq] at hh
            have hx := @head?_dropWhile (fun c => decide (c = a)) ds x
              (by rw [hdw]; rfl)
            rw [hh] at hx
            simp at hx
        · have hlen : (ds.dropWhile (· = a)).length ≤ n := by
            have := len_dropWhile_le (fun c => decide (c = a)) ds
            simp only [List.length_cons] at hm
            omega
          exact ih _ hlen hinf2
      next hd =>
        intro hinf
        rcases List.infix_cons_iff.mp hinf with hpre | hinf2
        · obtain ⟨t, ht⟩ := hpre
          have hc := congrArg List.head? ht
          simp only [List.cons_append, List.head?_cons, Option.some.injEq] at hc
          exact hd hc.symm
        · have hlen : ds.length ≤ n := by
            simp only [List.length_cons] at hm; omega
          exact ih _ hlen hinf2

theorem infix_stripP {p : Char → Bool} {l m : List Char}
    (h : m <:+: stripP p l) : m <:+: l :=
  h.trans (stripP_within p l)

theorem not_mem_pyReplace_map {x a b : Char} {l : List Char}
    (hx : x ∉ l) (hb : x ≠ b) : x ∉ pyReplace [a] [b] l := by
  rw [pyReplace_single_map]
  intro hm
  obtain ⟨d, hd, hfd⟩ := List.mem_map.mp hm
  by_cases hda : d = a
  · rw [if_pos hda] at hfd; exact hb hfd.symm
  · rw [if_neg hda] at hfd; exact hx (hfd ▸ hd)

theorem not_mem_pyReplace_map_self {a b : Char} (hab : a ≠ b) (l : List Char) :
    a ∉ pyReplace [a] [b] l := by
  rw [pyReplace_single_map]
  intro hm
  obtain ⟨d, _, hfd⟩ := List.mem_map.mp hm
  by_cases hda : d = a
  · rw [if_pos hda] at hfd; exact hab hfd.symm
  · rw [if_neg hda] at hfd; exact hda hfd

theorem not_mem_pyReplace_del {x a : Char} {l : List Char}
    (hx : x ∉ l) : x ∉ pyReplace [a] [] l := by
  rw [pyReplace_single_del]
  exact fun hm => hx (List.mem_filter.mp hm).1

theorem not_mem_pyReplace_del_self (a : Char) (l : List Char) :
    a ∉ pyReplace [a] [] l := by
  rw [pyReplace_single_del]
  intro hm
  have := (List.mem_filter.mp hm).2
  simp at this

theorem not_mem_pyReplace_gen {x : Char} {pat rep l : List Char}
    (hx : x ∉ l) (hr : x ∉ rep) : x ∉ pyReplace pat rep l :=
  fun hm => (mem_pyReplace hm).elim hr hx

theorem not_mem_collapseRuns {x a : Char} {l : List Char}
    (hx : x ∉ l) : x ∉ collapseRuns a l :=
  fun hm => hx (mem_collapseRuns hm)

theorem not_mem_stripP {x : Char} {p : Char → Bool} {l : List Char}
    (hx : x ∉ l) : x ∉ stripP p l :=
  fun hm => hx (mem_stripP hm)

/-- `clean_text_for_rag` (src/rag_scraping/utils.py, lines 14-40): the
exact sequence of replacements the source applies — remove double quotes,
remove straight single quotes, turn backslashes into slashes, tabs into
spaces, drop the (by then unmatchable) backslash-quote pairs, normalise
CR/LF to LF, newlines to spaces, collapse space runs, and strip. -/
def clean_text_for_rag (text : List Char) : List Char :=
  if text = [] then []
  else
    pyStrip (collapseRuns ' '
      (pyReplace ['\n'] [' ']
        (pyReplace ['\r'] ['\n']
          (pyReplace ['\r', '\n'] ['\n']
            (pyReplace ['\\', '\''] []
              (pyReplace ['\\', '"'] []
                (pyReplace ['\t'] [' ']
                  (pyReplace ['\\'] ['/']
                    (pyReplace ['\''] []
                      (pyReplace ['"'] [] text))))))))))

/-- C10: the cleaned text contains no newline, carriage return, tab,
double quote, straight single quote or backslash; it has no two adjacent
space characters; and it neither starts nor ends with whitespace. -/
theorem clean_text_for_rag_single_line_quote_free (s : List Char) :
    ('\n' ∉ clean_text_for_rag s) ∧ ('\r' ∉ clean_text_for_rag s) ∧
    ('\t' ∉ clean_text_for_rag s) ∧ ('"' ∉ clean_text_for_rag s) ∧
    ('\'' ∉ clean_text_for_rag s) ∧ ('\\' ∉ clean_text_for_rag s) ∧
    (¬ ([' ', ' '] <:+: clean_text_for_rag s)) ∧
    (∀ c, (clean_text_for_rag s).head? = some c → pyIsSpace c = false) ∧
    (∀ c, (clean_text_for_rag s).getLast? = some c → pyIsSpace c = false) := by
  by_cases hs : s = []
  · subst hs
    simp [clean_text_for_rag]
  · simp only [clean_text_for_rag, if_neg hs, pyStrip]
    set u0 := pyReplace ['"'] [] s with hu0
    set u1 := pyReplace ['\''] [] u0 with hu1
    set u2 := pyReplace ['\\'] ['/'] u1 with hu2
    set u3 := pyReplace ['\t'] [' '] u2 with hu3
    set u4 := pyReplace ['\\', '"'] [] u3 with hu4
    set u5 := pyReplace ['\\', '\''] [] u4 with hu5
    set u6 := pyReplace ['\r', '\n'] ['\n'] u5 with hu6
    set u7 := pyReplace ['\r'] ['\n'] u6 with hu7
    set u8 := pyReplace ['\n'] [' '] u7 with hu8
    set u9 := collapseRuns ' ' u8 with hu9
    have hq0 : '"' ∉ u0 := not_mem_pyReplace_del_self '"' s
    have hq1 : '"' ∉ u1 := not_mem_pyReplace_del hq0
    have hq2 : '"' ∉ u2 := not_mem_pyReplace_map hq1 (by decide)
    have hq3 : '"' ∉ u3 := not_mem_pyReplace_map hq2 (by decide)
    have hap1 : '\'' ∉ u1 := not_mem_pyReplace_del_self '\'' u0
    have hap2 : '\'' ∉ u2 := not_mem_pyReplace_map hap1 (by decide)
    have hap3 : '\'' ∉ u3 := not_mem_pyReplace_map hap2 (by decide)
    have hbs2 : '\\' ∉ u2 := not_mem_pyReplace_map_self (by decide) u1
    have hbs3 : '\\' ∉ u3 := not_mem_pyReplace_map hbs2 (by decide)
    have htb3 : '\t' ∉ u3 := not_mem_pyReplace_map_self (by decide) u2
    have hq5 : '"' ∉ u5 :=
      not_mem_pyReplace_gen (not_mem_pyReplace_gen hq3 (by simp)) (by simp)
    have hap5 : '\'' ∉ u5 :=
      not_mem_pyReplace_gen (not_mem_pyReplace_gen hap3 (by simp)) (by simp)
    have hbs5 : '\\' ∉ u5 :=
      not_mem_pyReplace_gen (not_mem_pyReplace_gen hbs3 (by simp)) (by simp)
    have htb5 : '\t' ∉ u5 :=
      not_mem_pyReplace_gen (not_mem_pyReplace_gen htb3 (by simp)) (by simp)
    have hq6 : '"' ∉ u6 := not_mem_pyReplace_gen hq5 (by decide)
    have hap6 : '\'' ∉ u6 := not_mem_pyReplace_gen hap5 (by decide)
    have hbs6 : '\\' ∉ u6 := not_mem_pyReplace_gen hbs5 (by decide)
    have htb6 : '\t' ∉ u6 := not_mem_pyReplace_gen htb5 (by decide)
    have hcr7 : '\r' ∉ u7 := not_mem_pyReplace_map_self (by decide) u6
    have hq7 : '"' ∉ u7 := not_mem_pyReplace_map hq6 (by decide)
    have hap7 : '\'' ∉ u7 := not_mem_pyReplace_map hap6 (by decide)
    have hbs7 : '\\' ∉ u7 := not_mem_pyReplace_map hbs6 (by decide)
    have htb7 : '\t' ∉ u7 := not_mem_pyReplace_map htb6 (by decide)
    have hnl8 : '\n' ∉ u8 := not_mem_pyReplace_map_self (by decide) u7
    have hcr8 : '\r' ∉ u8 := not_mem_pyReplace_map hcr7 (by decide)
    have hq8 : '"' ∉ u8 := not_mem_pyReplace_map hq7 (by decide)
    have hap8 : '\'' ∉ u8 := not_mem_pyReplace_map hap7 (by decide)
    have hbs8 : '\\' ∉ u8 := not_mem_pyReplace_map hbs7 (by decide)
    have htb8 : '\t' ∉ u8 := not_mem_pyReplace_map htb7 (by decide)
    refine ⟨?_, ?_, ?_, ?_, ?_, ?_, ?_, ?_, ?_⟩
    · exact not_mem_stripP (not_mem_collapseRuns hnl8)
    · exact not_mem_stripP (not_mem_collapseRuns hcr8)
    · exact not_mem_stripP (not_mem_collapseRuns htb8)
    · exact not_mem_stripP (not_mem_collapseRuns hq8)
    · exact not_mem_stripP (not_mem_collapseRuns hap8)
    · exact not_mem_stripP (not_mem_collapseRuns hbs8)
    · intro hinf
      exact collapseRuns_no_double ' ' u8 (infix_stripP hinf)
    · exact fun c h => stripP_head? h
    · exact fun c h => stripP_getLast? h

/-- Characters allowed in a document id: the class `[a-zA-Z0-9_\-=]` of the
source's `re.sub(r'[^a-zA-Z0-9_\-=]', '_', text)`. -/
def allowedIdChar (c : Char) : Bool :=
  ('a' ≤ c && c ≤ 'z') || ('A' ≤ c && c ≤ 'Z') || ('0' ≤ c && c ≤ '9') ||
  c = '_' || c = '-' || c = '='

/-- Python `str.isalnum` restricted to the characters that can reach the
`text[0].isalnum()` check of `normalize_document_id` (after the regex
sanitisation every character is ASCII `[a-zA-Z0-9_\-=]`, on which
`isalnum` coincides with being an ASCII letter or digit). -/
def pyIsAlnumId (c : Char) : Bool :=
  ('a' ≤ c && c ≤ 'z') || ('A' ≤ c && c ≤ 'Z') || ('0' ≤ c && c ≤ '9')

/-- One character of `re.sub(r'[^a-zA-Z0-9_\-=]', '_', text)`. -/
def sanitizeChar (c : Char) : Char := if allowedIdChar c then c else '_'

/-- `normalize_document_id` (src/rag_scraping/utils.py, lines 80-125).
The Unicode NFKD decomposition with combining-mark removal (lines 99-100,
`unicodedata.normalize('NFKD', ...)` then dropping combining characters)
is passed in as the parameter `nfkd`; the only property of it the theorems
use is that it fixes strings made of allowed ASCII id characters, which is
a fact of Unicode. All later steps follow the source exactly: replace
space and bracket characters by underscores, replace every character
outside `[a-zA-Z0-9_\-=]` by an underscore, collapse underscore runs,
strip underscores at both ends, substitute the sentinel for an empty
result, and prefix `doc_` when the first character is not alphanumeric.
`normalizeTail` holds the steps from the regex sanitisation (line 109)
onwards; `normalize_document_id` itself performs the guard, the `nfkd`
step and the space/bracket replacements (lines 95-106) before calling it. -/
def normalizeTail (t2 : List Char) : List Char :=
  match stripUnd (collapseRuns '_' (t2.map sanitizeChar)) with
  | [] => "unknown".toList
  | c :: cs =>
    if pyIsAlnumId c then c :: cs else "doc_".toList ++ (c :: cs)

def normalize_document_id (nfkd : List Char → List Char) (text : List Char) :
    List Char :=
  if text = [] then "unknown".toList
  else
    normalizeTail
      (pyReplace ['\x7d'] ['_']
        (pyReplace ['\x7b'] ['_']
          (pyReplace [']'] ['_']
            (pyReplace ['['] ['_']
              (pyReplace [')'] ['_']
                (pyReplace ['('] ['_']
                  (pyReplace [' '] ['_'] (nfkd text))))))))

/-- `create_chunk_id` (src/rag_scraping/utils.py, lines 128-143):
`normalize_document_id(title) + "_chunk_" + f"\x7bchunk_number:02d\x7d"`. -/
def create_chunk_id (nfkd : List Char → List Char) (title : List Char)
    (chunk_number : Nat) : List Char :=
  normalize_document_id nfkd title ++ "_chunk_".toList ++
    (if chunk_number < 10 then '0' :: (Nat.repr chunk_number).toList
     else (Nat.repr chunk_number).toList)

/-- Structural invariant enjoyed by every `normalize_document_id` result:
non-empty, all characters in the allowed class, no two adjacent
underscores, alphanumeric first character, and no trailing underscore. -/
def goodId (l : List Char) : Prop :=
  l ≠ [] ∧ (∀ c ∈ l, allowedIdChar c = true) ∧ (¬ (['_', '_'] <:+: l)) ∧
  (∀ c, l.head? = some c → pyIsAlnumId c = true) ∧
  (∀ c, l.getLast? = some c → c ≠ '_')

theorem not_mem_of_all_allowed {l : List Char} {x : Char}
    (h : ∀ c ∈ l, allowedIdChar c = true) (hx : allowedIdChar x = false) :
    x ∉ l := by
  intro hm
  rw [h x hm] at hx
  cases hx

theorem allowed_sanitizeChar (d : Char) : allowedIdChar (sanitizeChar d) = true := by
  unfold sanitizeChar
  split
  next h => exact h
  next => decide

theorem collapseRuns_eq_self {a : Char} {l : List Char}
    (h : ¬ ([a, a] <:+: l)) : collapseRuns a l = l := by
  suffices hfuel : ∀ n (m : List Char), m.length ≤ n →
      ¬ ([a, a] <:+: m) → collapseRuns a m = m by
    exact hfuel l.length l le_rfl h
  intro n
  induction n with
  | zero =>
    intro m hm _
    cases m with
    | nil => rfl
    | cons d ds => simp at hm
  | succ n ih =>
    intro m hm hnd
    cases m with
    | nil => rfl
    | cons d ds =>
      rw [collapseRuns_cons]
      by_cases hd : d = a
      · rw [if_pos hd]
        subst hd
        have hds : ds.dropWhile (· = d) = ds := by
          apply dropWhile_eq_self_of_head?
          intro c hc
          by_contra hcd
          simp only [Bool.not_eq_false, decide_eq_true_eq] at hcd
          subst hcd
          obtain ⟨ds', hds'⟩ := List.head?_eq_some_iff.mp hc
          refine hnd ?_
          rw [hds']
          exact List.IsPrefix.isInfix ⟨ds', rfl⟩
        rw [hds]
        have hlen : ds.length ≤ n := by
          simp only [List.length_cons] at hm; omega
        rw [ih ds hlen (fun hinf => hnd (List.infix_cons hinf))]
      · rw [if_neg hd]
        have hlen : ds.length ≤ n := by
          simp only [List.length_cons] at hm; omega
        rw [ih ds hlen (fun hinf => hnd (List.infix_cons hinf))]

theorem stripP_eq_self {p : Char → Bool} {l : List Char}
    (h1 : ∀ c, l.head? = some c → p c = false)
    (h2 : ∀ c, l.getLast? = some c → p c = false) : stripP p l = l := by
  show ((l.dropWhile p).reverse.dropWhile p).reverse = l
  rw [dropWhile_eq_self_of_head? h1]
  rw [dropWhile_eq_self_of_head?
    (fun c hc => h2 c (by rwa [List.head?_reverse] at hc))]
  exact List.reverse_reverse l

theorem goodId_unknown : goodId ("unknown".toList) := by
  refine ⟨by decide, by decide, by decide, ?_, ?_⟩
  · intro c h
    rw [show ("unknown".toList).head? = some 'u' from rfl] at h
    injection h with h
    subst h
    decide
  · intro c h
    rw [show ("unknown".toList).getLast? = some 'n' from by decide] at h
    injection h with h
    subst h
    decide

theorem pair_prefix_first {x y d : Char} {t l : List Char}
    (ht : [x, y] ++ t = d :: l) : x = d := by
  have := congrArg List.head? ht
  simpa using this

theorem pair_prefix_second {x y d e : Char} {t l : List Char}
    (ht : [x, y] ++ t = d :: e :: l) : y = e := by
  have := congrArg (fun m => m.tail.head?) ht
  simpa using this

theorem goodId_normalizeTail (m : List Char) :
    goodId (normalizeTail m) := by
  unfold normalizeTail
  have hall4 : ∀ c ∈ collapseRuns '_' (m.map sanitizeChar), allowedIdChar c = true := by
    intro c hc
    obtain ⟨d, _, hd⟩ := List.mem_map.mp (mem_collapseRuns hc)
    exact hd ▸ allowed_sanitizeChar d
  have hnd4 : ¬ (['_', '_'] <:+: collapseRuns '_' (m.map sanitizeChar)) :=
    collapseRuns_no_double '_' (m.map sanitizeChar)
  cases hst : stripUnd (collapseRuns '_' (m.map sanitizeChar)) with
  | nil => exact goodId_unknown
  | cons c cs =>
    show goodId (if pyIsAlnumId c then c :: cs else "doc_".toList ++ (c :: cs))
    have hall5 : ∀ x ∈ c :: cs, allowedIdChar x = true := by
      intro x hx
      exact hall4 x (mem_stripP (hst ▸ hx))
    have hnd5 : ¬ (['_', '_'] <:+: c :: cs) := by
      intro hinf
      exact hnd4 (infix_stripP (hst ▸ hinf))
    have hchead : c ≠ '_' := by
      intro hce
      have h' : (stripUnd (collapseRuns '_' (m.map sanitizeChar))).head? = some '_' := by
        rw [hst, hce]
        rfl
      have := stripP_head? h'
      simp at this
    have hlast : ∀ x, (c :: cs).getLast? = some x → x ≠ '_' := by
      intro x hx hxe
      subst hxe
      have h' : (stripUnd (collapseRuns '_' (m.map sanitizeChar))).getLast? = some '_' := by
        rw [hst]
        exact hx
      have := stripP_getLast? h'
      simp at this
    by_cases hc : pyIsAlnumId c
    · rw [if_pos hc]
      refine ⟨by simp, hall5, hnd5, ?_, hlast⟩
      intro x hx
      rw [List.head?_cons] at hx
      injection hx with hx
      exact hx ▸ hc
    · rw [if_neg hc]
      rw [show ("doc_".toList) = ['d', 'o', 'c', '_'] from rfl]
      refine ⟨by simp, ?_, ?_, ?_, ?_⟩
      · intro x hx
        rcases List.mem_append.mp hx with h4 | h5
        · simp only [List.mem_cons, List.not_mem_nil, or_false] at h4
          rcases h4 with rfl | rfl | rfl | rfl <;> decide
        · exact hall5 x h5
      · intro hinf
        simp only [List.cons_append, List.nil_append] at hinf
        rcases List.infix_cons_iff.mp hinf with hp | hinf
        · obtain ⟨t, ht⟩ := hp
          cases pair_prefix_first ht
        · rcases List.infix_cons_iff.mp hinf with hp | hinf
          · obtain ⟨t, ht⟩ := hp
            cases pair_prefix_first ht
          · rcases List.infix_cons_iff.mp hinf with hp | hinf
            · obtain ⟨t, ht⟩ := hp
              cases pair_prefix_first ht
            · rcases List.infix_cons_iff.mp hinf with hp | hinf
              · obtain ⟨t, ht⟩ := hp
                exact hchead (pair_prefix_second ht).symm
              · exact hnd5 hinf
      · intro x hx
        rw [show ((['d', 'o', 'c', '_'] : List Char) ++ (c :: cs)).head? = some 'd'
          from rfl] at hx
        injection hx with hx
        subst hx
        decide
      · intro x hx
        rw [List.getLast?_append] at hx
        rcases h' : (c :: cs).getLast? with _ | y
        · rw [List.getLast?_eq_none_iff] at h'
          cases h'
        · rw [h'] at hx
          simp only [Option.or_some, Option.some.injEq] at hx
          subst hx
          exact hlast y h'

theorem goodId_normalize (nfkd : List Char → List Char) (s : List Char) :
    goodId (normalize_document_id nfkd s) := by
  rw [normalize_document_id]
  by_cases hs : s = []
  · rw [if_pos hs]
    exact goodId_unknown
  · rw [if_neg hs]
    exact goodId_normalizeTail _

theorem normalize_fix {nfkd : List Char → List Char}
    (hfix : ∀ l, (∀ c ∈ l, allowedIdChar c = true) → nfkd l = l)
    {l : List Char} (hg : goodId l) : normalize_document_id nfkd l = l := by
  obtain ⟨hne, hall, hnd, hhead, hlast⟩ := hg
  obtain ⟨c, cs, hl⟩ := List.exists_cons_of_ne_nil hne
  subst hl
  rw [normalize_document_id, if_neg (by simp)]
  rw [hfix _ hall]
  rw [pyReplace_no_occur ' ' [] ['_'] _ (not_mem_of_all_allowed hall (by decide))]
  rw [pyReplace_no_occur '(' [] ['_'] _ (not_mem_of_all_allowed hall (by decide))]
  rw [pyReplace_no_occur ')' [] ['_'] _ (not_mem_of_all_allowed hall (by decide))]
  rw [pyReplace_no_occur '[' [] ['_'] _ (not_mem_of_all_allowed hall (by decide))]
  rw [pyReplace_no_occur ']' [] ['_'] _ (not_mem_of_all_allowed hall (by decide))]
  rw [pyReplace_no_occur '\x7b' [] ['_'] _ (not_mem_of_all_allowed hall (by decide))]
  rw [pyReplace_no_occur '\x7d' [] ['_'] _ (not_mem_of_all_allowed hall (by decide))]
  have hmap : (c :: cs).map sanitizeChar = c :: cs := by
    have hcg : ∀ a ∈ c :: cs, sanitizeChar a = id a := by
      intro a ha
      unfold sanitizeChar
      rw [if_pos (hall a ha)]
      rfl
    rw [List.map_congr_left hcg, List.map_id]
  unfold normalizeTail
  rw [hmap]
  rw [collapseRuns_eq_self hnd]
  have hstrip : stripUnd (c :: cs) = c :: cs := by
    apply stripP_eq_self
    · intro x hx
      have := hhead x hx
      simp only [decide_eq_false_iff_not]
      intro hxe
      subst hxe
      rw [show pyIsAlnumId '_' = false from rfl] at this
      cases this
    · intro x hx
      simp only [decide_eq_false_iff_not]
      exact hlast x hx
  rw [hstrip]
  show (if pyIsAlnumId c then c :: cs else "doc_".toList ++ (c :: cs)) = c :: cs
  rw [if_pos (hhead c rfl)]

/-- C2: `normalize_document_id` is idempotent and its output is always a
non-empty string over the charset `[A-Za-z0-9_\-=]` (the empty and
degenerate cases yielding the sentinel `"unknown"`). The hypothesis states
the Unicode fact this relies on: NFKD decomposition followed by
combining-mark removal fixes strings that are already plain ASCII id
characters. -/
theorem normalize_document_id_idempotent_and_charset
    (nfkd : List Char → List Char)
    (hfix : ∀ l, (∀ c ∈ l, allowedIdChar c = true) → nfkd l = l)
    (s : List Char) :
    normalize_document_id nfkd (normalize_document_id nfkd s) =
      normalize_document_id nfkd s ∧
    normalize_document_id nfkd s ≠ [] ∧
    (∀ c ∈ normalize_document_id nfkd s, allowedIdChar c = true) := by
  have hg := goodId_normalize nfkd s
  exact ⟨normalize_fix hfix hg, hg.1, hg.2.1⟩

/-- Witness for C2: instantiated at the identity embedding of the NFKD
step (which trivially satisfies the hypothesis) and the spec's example
title. -/
theorem normalize_document_id_idempotent_and_charset_witness :
    (∀ l : List Char, (∀ c ∈ l, allowedIdChar c = true) → id l = l) ∧
    (normalize_document_id id (normalize_document_id id
        "Cafe (Versnellingsplan)!".toList) =
      normalize_document_id id "Cafe (Versnellingsplan)!".toList ∧
    normalize_document_id id "Cafe (Versnellingsplan)!".toList ≠ [] ∧
    (∀ c ∈ normalize_document_id id "Cafe (Versnellingsplan)!".toList,
      allowedIdChar c = true)) :=
  ⟨fun _ _ => rfl,
   normalize_document_id_idempotent_and_charset id (fun _ _ => rfl)
     "Cafe (Versnellingsplan)!".toList⟩

/-- The `for ending in ['.', '!', '?']` loop of `split_text_into_chunks`
(src/rag_scraping/utils.py, lines 185-192): take the first ending in list
order whose last occurrence lies past 70 percent of the window; otherwise
keep looking.  Python's `-1`-on-absence `rfind` result never passes the
threshold, which the `none` branch mirrors.  Python compares
`pos > max_chunk_size * 0.7` in floating point; the exact rational
comparison `10 * p > 7 * maxs` agrees except possibly at a single boundary
index for window sizes whose float product rounds across an integer, a
cutoff none of the verified properties depend on. -/
def tryEndings (chunk_text : List Char) (maxs : Nat) : List Char → Option Nat
  | [] => none
  | e :: es =>
    match rfindList [e] chunk_text with
    | some p => if 10 * p > 7 * maxs then some p else tryEndings chunk_text maxs es
    | none => tryEndings chunk_text maxs es

/-- The sentence-ending break position `break_pos` after the endings loop
of `split_text_into_chunks` (src/rag_scraping/utils.py, lines 187-192),
defaulting to the window end `end_pos`. -/
def sentBreak (text : List Char) (maxs pos : Nat) : Nat :=
  match tryEndings ((text.drop pos).take maxs) maxs ['.', '!', '?'] with
  | some p => pos + p + 1
  | none => pos + maxs

/-- The final break-point computation of `split_text_into_chunks`
(src/rag_scraping/utils.py, lines 181-198): sentence-ending search first;
when the resulting break position still equals the window end, the
paragraph-break (`\n\n`) search may override it (`pos > max_chunk_size *
0.5`, exact here since 0.5 is a dyadic float). -/
def breakPos (text : List Char) (maxs pos : Nat) : Nat :=
  if sentBreak text maxs pos = pos + maxs then
    match rfindList ['\n', '\n'] ((text.drop pos).take maxs) with
    | some q => if 2 * q > maxs then pos + q + 2 else sentBreak text maxs pos
    | none => sentBreak text maxs pos
  else sentBreak text maxs pos

/-- Cursor advance of `split_text_into_chunks` (src/rag_scraping/utils.py,
line 206): `current_pos = max(break_pos - overlap, current_pos + 1)`. -/
def nextCursor (text : List Char) (maxs overlap pos : Nat) : Nat :=
  max (breakPos text maxs pos - overlap) (pos + 1)

/-- The `while current_pos < len(text)` loop of `split_text_into_chunks`
(src/rag_scraping/utils.py, lines 170-206). -/
def splitLoop (text : List Char) (maxs mins overlap pos : Nat) :
    List (List Char) :=
  if h : pos < text.length then
    if text.length ≤ pos + maxs then
      if mins ≤ (pyStrip (text.drop pos)).length then [pyStrip (text.drop pos)]
      else []
    else
      if mins ≤ (pyStrip ((text.drop pos).take (breakPos text maxs pos - pos))).length then
        pyStrip ((text.drop pos).take (breakPos text maxs pos - pos)) ::
          splitLoop text maxs mins overlap (nextCursor text maxs overlap pos)
      else splitLoop text maxs mins overlap (nextCursor text maxs overlap pos)
  else []
termination_by text.length - pos
decreasing_by
  · have hadv : pos + 1 ≤ nextCursor text maxs overlap pos := Nat.le_max_right _ _
    omega
  · have hadv : pos + 1 ≤ nextCursor text maxs overlap pos := Nat.le_max_right _ _
    omega

/-- `split_text_into_chunks` (src/rag_scraping/utils.py, lines 146-208):
the early return for empty or too-short (after stripping) input, then the
scanning loop from position 0. -/
def split_text_into_chunks (text : List Char)
    (max_chunk_size min_chunk_size overlap : Nat) : List (List Char) :=
  if text = [] ∨ (pyStrip text).length < min_chunk_size then []
  else splitLoop text max_chunk_size min_chunk_size overlap 0

theorem rfindList_bound {pat l : List Char} {p : Nat}
    (h : rfindList pat l = some p) : p + pat.length ≤ l.length := by
  unfold rfindList at h
  have hmem : p ∈ (List.range (l.length + 1)).filter
      (fun i => pat.isPrefixOf (l.drop i)) := by
    have := List.getLast?_eq_getLast ((List.range (l.length + 1)).filter
      (fun i => pat.isPrefixOf (l.drop i))) (by intro he; rw [he] at h; cases h)
    rw [this] at h
    injection h with h
    rw [← h]
    exact List.getLast_mem _
  have hpre := (List.mem_filter.mp hmem).2
  rw [List.isPrefixOf_iff_prefix] at hpre
  have hlen := hpre.length_le
  rw [List.length_drop] at hlen
  have hrange := List.mem_range.mp (List.mem_filter.mp hmem).1
  omega

theorem sentBreak_le (text : List Char) (maxs pos : Nat) :
    sentBreak text maxs pos ≤ pos + maxs := by
  unfold sentBreak
  cases he : tryEndings ((text.drop pos).take maxs) maxs ['.', '!', '?'] with
  | none => exact le_rfl
  | some p =>
    have hct : ((text.drop pos).take maxs).length ≤ maxs := by
      rw [List.length_take]
      exact min_le_left _ _
    have hp : p + 1 ≤ maxs := by
      have hgen : ∀ es, tryEndings ((text.drop pos).take maxs) maxs es = some p →
          p + 1 ≤ maxs := by
        intro es
        induction es with
        | nil => intro hcon; rw [tryEndings] at hcon; cases hcon
        | cons e es ih =>
          intro hcon
          rw [tryEndings] at hcon
          rcases hr : rfindList [e] ((text.drop pos).take maxs) with _ | q
          · rw [hr] at hcon
            exact ih hcon
          · rw [hr] at hcon
            simp only at hcon
            split at hcon
            · injection hcon with hcon
              subst hcon
              have := rfindList_bound hr
              simp only [List.length_cons, List.length_nil] at this
              omega
            · exact ih hcon
      exact hgen _ he
    show pos + p + 1 ≤ pos + maxs
    omega

theorem breakPos_le (text : List Char) (maxs pos : Nat) :
    breakPos text maxs pos ≤ pos + maxs := by
  have hsb := sentBreak_le text maxs pos
  have hct : ((text.drop pos).take maxs).length ≤ maxs := by
    rw [List.length_take]
    exact min_le_left _ _
  unfold breakPos
  split
  · cases hq : rfindList ['\n', '\n'] ((text.drop pos).take maxs) with
    | none => exact hsb
    | some q =>
      simp only
      split
      · have := rfindList_bound hq
        simp only [List.length_cons, List.length_nil] at this
        omega
      · exact hsb
  · exact hsb

theorem splitLoop_chunk_bounds (text : List Char) (maxs mins overlap : Nat) :
    ∀ fuel pos, text.length - pos ≤ fuel →
      ∀ c ∈ splitLoop text maxs mins overlap pos,
        mins ≤ c.length ∧ c.length ≤ maxs := by
  intro fuel
  induction fuel with
  | zero =>
    intro pos hf c hc
    rw [splitLoop] at hc
    rw [dif_neg (by omega)] at hc
    cases hc
  | succ n ih =>
    intro pos hf c hc
    rw [splitLoop] at hc
    by_cases hpos : pos < text.length
    · rw [dif_pos hpos] at hc
      by_cases hlast : text.length ≤ pos + maxs
      · rw [if_pos hlast] at hc
        split at hc
        next hge =>
          rcases List.mem_singleton.mp hc with rfl
          constructor
          · exact hge
          · have h1 : (pyStrip (text.drop pos)).length ≤ (text.drop pos).length :=
              stripP_length_le pyIsSpace (text.drop pos)
            rw [List.length_drop] at h1
            omega
        next => cases hc
      · rw [if_neg hlast] at hc
        have hnext : pos + 1 ≤ nextCursor text maxs overlap pos :=
          Nat.le_max_right _ _
        have hfn : text.length - nextCursor text maxs overlap pos ≤ n := by omega
        split at hc
        next hge =>
          rcases List.mem_cons.mp hc with rfl | hrec
          · constructor
            · exact hge
            · have h1 : (pyStrip ((text.drop pos).take (breakPos text maxs pos - pos))).length ≤
                  ((text.drop pos).take (breakPos text maxs pos - pos)).length :=
                stripP_length_le pyIsSpace _
              have h2 : ((text.drop pos).take (breakPos text maxs pos - pos)).length ≤
                  breakPos text maxs pos - pos := by
                rw [List.length_take]
                exact min_le_left _ _
              have h3 := breakPos_le text maxs pos
              omega
          · exact ih _ hfn c hrec
        next => exact ih _ hfn c hc
    · rw [dif_neg hpos] at hc
      cases hc

/-- C4: every chunk produced by `split_text_into_chunks` with bounds
`0 < min_size ≤ max_size` has length between `min_size` and `max_size`,
and an input whose stripped length is below `min_size` produces no chunks
at all. -/
theorem split_text_into_chunks_bounds (text : List Char)
    (maxs mins overlap : Nat) (hmin : 0 < mins) (hminmax : mins ≤ maxs) :
    (∀ c ∈ split_text_into_chunks text maxs mins overlap,
      mins ≤ c.length ∧ c.length ≤ maxs) ∧
    ((pyStrip text).length < mins →
      split_text_into_chunks text maxs mins overlap = []) := by
  constructor
  · intro c hc
    unfold split_text_into_chunks at hc
    split at hc
    · cases hc
    · exact splitLoop_chunk_bounds text maxs mins overlap text.length 0
        (by omega) c hc
  · intro hlt
    unfold split_text_into_chunks
    rw [if_pos (Or.inr hlt)]

/-- Witness for C4 at a concrete 84-character text with bounds 10 ≤ 40. -/
theorem split_text_into_chunks_bounds_witness :
    0 < 10 ∧ 10 ≤ 40 ∧
    ((∀ c ∈ split_text_into_chunks
        "This is a sentence. Here is another one! And a question? Then some trailing words.".toList
        40 10 5,
      10 ≤ c.length ∧ c.length ≤ 40) ∧
    ((pyStrip "This is a sentence. Here is another one! And a question? Then some trailing words.".toList).length < 10 →
      split_text_into_chunks
        "This is a sentence. Here is another one! And a question? Then some trailing words.".toList
        40 10 5 = [])) :=
  ⟨by decide, by decide,
   split_text_into_chunks_bounds
     "This is a sentence. Here is another one! And a question? Then some trailing words.".toList
     40 10 5 (by decide) (by decide)⟩

/-- C7: the chunker's loop always makes strict forward progress — the
cursor advance `max(break_pos - overlap, current_pos + 1)` is at least
`current_pos + 1` for every state, even when the overlap exceeds the
produced chunk — and consequently the returned sequence is finite, with
at most one chunk per character of the input. -/
theorem split_text_into_chunks_terminates (text : List Char)
    (maxs mins overlap : Nat) :
    (∀ pos, pos + 1 ≤ nextCursor text maxs overlap pos) ∧
    (∀ pos, (splitLoop text maxs mins overlap pos).length ≤ text.length - pos) ∧
    (split_text_into_chunks text maxs mins overlap).length ≤ text.length := by
  have hloop : ∀ fuel pos, text.length - pos ≤ fuel →
      (splitLoop text maxs mins overlap pos).length ≤ text.length - pos := by
    intro fuel
    induction fuel with
    | zero =>
      intro pos hf
      rw [splitLoop]
      rw [dif_neg (by omega)]
      simp
    | succ n ih =>
      intro pos hf
      rw [splitLoop]
      by_cases hpos : pos < text.length
      · rw [dif_pos hpos]
        by_cases hlast : text.length ≤ pos + maxs
        · rw [if_pos hlast]
          split
          · simp only [List.length_cons, List.length_nil]
            omega
          · simp only [List.length_nil]
            omega
        · rw [if_neg hlast]
          have hnext : pos + 1 ≤ nextCursor text maxs overlap pos :=
            Nat.le_max_right _ _
          have hfn : text.length - nextCursor text maxs overlap pos ≤ n := by omega
          have hrec := ih (nextCursor text maxs overlap pos) hfn
          split
          · simp only [List.length_cons]
            omega
          · omega
      · rw [dif_neg hpos]
        simp
  refine ⟨fun pos => Nat.le_max_right _ _, fun pos => hloop text.length pos (by omega), ?_⟩
  unfold split_text_into_chunks
  split
  · simp
  · have := hloop text.length 0 (by omega)
    omega

/-- Abstract stand-in for a Python `datetime` carried by
`KnowledgeBaseItem.date`: `iso` is the value of `.isoformat()` after the
timezone-defaulting step of `format_date` (utils.py, lines 58-62). The
claims under verification never inspect dates, so the datetime itself is
opaque here. -/
structure PyDatetime where
  iso : List Char
deriving DecidableEq

/-- `format_date` (src/rag_scraping/utils.py, lines 43-77) restricted to
its `None`/`datetime` branches — the only branches reachable from
`KnowledgeBaseItem.date : Optional[datetime]`; the string branches concern
dict-shaped inputs used elsewhere. -/
def format_date : Option PyDatetime → Option (List Char)
  | none => none
  | some d => some d.iso

/-- `KnowledgeBaseItem` (src/rag_scraping/models.py, lines 13-40); the
`None` list defaults of `__post_init__` are modelled by the lists being
plain (possibly empty) lists. -/
structure KnowledgeBaseItem where
  title : List Char
  url : List Char
  date : Option PyDatetime
  item_type : Option (List Char)
  main_content : Option (List Char)
  associated_files : List (List Char)
  zones : List (List Char)
  type_innovatie : List (List Char)
  pdfs : List (List Char)
  videos : List (List Char)
  pictures : List (List Char)
deriving DecidableEq

/-- The chunk record built by `create_chunk_dict`
(src/rag_scraping/rag_chunking.py, lines 112-150), with one field per key
of the returned dict. -/
structure RagChunk where
  id : List Char
  title : List Char
  content : List Char
  source_type : List Char
  sourcepage : Option (List Char)
  sourcefile : Option (List Char)
  page_number : Option Nat
  date : Option (List Char)
  zones : List (List Char)
  type_innovatie : List (List Char)
  pdfs : List (List Char)
  videos : List (List Char)
  pictures : List (List Char)
  chunk_number : Nat
  content_length : Nat
deriving DecidableEq

/-- `create_chunk_dict` (src/rag_scraping/rag_chunking.py, lines 112-150). -/
def create_chunk_dict (nfkd : List Char → List Char) (item : KnowledgeBaseItem)
    (chunk_number : Nat) (content : List Char) (source_type : List Char) :
    RagChunk :=
  ⟨create_chunk_id nfkd item.title chunk_number,
   item.title, content, source_type,
   if source_type = "page".toList then some item.url else none,
   none, none,
   format_date item.date,
   item.zones, item.type_innovatie, item.pdfs, item.videos, item.pictures,
   chunk_number, content.length⟩

/-- The numbering loop over `text_chunks` of `create_chunks_from_item`
(src/rag_scraping/rag_chunking.py, lines 93-100): a chunk dict is emitted,
and the id incremented, only for chunks whose stripped length reaches
`min_chunk_size`. -/
def numberChunks (nfkd : List Char → List Char) (item : KnowledgeBaseItem)
    (source_type : List Char) (min_chunk_size : Nat) :
    List (List Char) → Nat → List RagChunk
  | [], _ => []
  | tc :: tcs, k =>
    if min_chunk_size ≤ (pyStrip tc).length then
      create_chunk_dict nfkd item k tc source_type ::
        numberChunks nfkd item source_type min_chunk_size tcs (k + 1)
    else numberChunks nfkd item source_type min_chunk_size tcs k

/-- `create_chunks_from_item` (src/rag_scraping/rag_chunking.py, lines
47-109): missing/blank main content falls back to a `Page: ...` stub chunk
(guarded by `min_chunk_size`); otherwise the cleaned content is split with
`split_text_into_chunks(cleaned, max_chunk_size=target_chunk_size,
min_chunk_size, overlap=200)`, the surviving chunks are numbered from 1,
and when none were created the whole cleaned content becomes a single
chunk — but only if its stripped length is at least `min_chunk_size`
(line 103). `max_chunk_size` is read from the config by the source but
never used, which the unused parameter mirrors. -/
def create_chunks_from_item (nfkd : List Char → List Char)
    (item : KnowledgeBaseItem)
    (min_chunk_size max_chunk_size target_chunk_size : Nat)
    (source_type : List Char) : List RagChunk :=
  match item.main_content with
  | none =>
    if min_chunk_size ≤
        (pyStrip ("Page: ".toList ++ item.title ++ ". URL: ".toList ++ item.url)).length then
      [create_chunk_dict nfkd item 1
        ("Page: ".toList ++ item.title ++ ". URL: ".toList ++ item.url) source_type]
    else []
  | some mc =>
    if mc = [] ∨ pyStrip mc = [] then
      if min_chunk_size ≤
          (pyStrip ("Page: ".toList ++ item.title ++ ". URL: ".toList ++ item.url)).length then
        [create_chunk_dict nfkd item 1
          ("Page: ".toList ++ item.title ++ ". URL: ".toList ++ item.url) source_type]
      else []
    else
      if numberChunks nfkd item source_type min_chunk_size
          (split_text_into_chunks (clean_text_for_rag mc) target_chunk_size
            min_chunk_size 200) 1 = [] ∧
         min_chunk_size ≤ (pyStrip (clean_text_for_rag mc)).length then
        [create_chunk_dict nfkd item 1 (clean_text_for_rag mc) source_type]
      else
        numberChunks nfkd item source_type min_chunk_size
          (split_text_into_chunks (clean_text_for_rag mc) target_chunk_size
            min_chunk_size 200) 1

/-- Concrete item for the C1 counterexample: non-empty main content of 10
characters, well below a `min_chunk_size` of 50. -/
def shortContentItem : KnowledgeBaseItem :=
  ⟨"T".toList, "u".toList, none, none, some "short text".toList,
   [], [], [], [], [], []⟩

/-- C1 counterexample: an item whose cleaned main content is non-empty
(10 characters) and strictly shorter than `min_chunk_size = 50` emits NO
chunk at all — the single-chunk fallback of line 103 is guarded by
`len(cleaned_content.strip()) >= min_chunk_size`, so it does not fire for
short content, contradicting the claimed single-chunk fallback. -/
theorem create_chunks_short_content_counterexample :
    clean_text_for_rag "short text".toList ≠ [] ∧
    (clean_text_for_rag "short text".toList).length < 50 ∧
    create_chunks_from_item id shortContentItem 50 2000 500 "page".toList = [] := by
  decide

/-- C1 amended: an item whose raw main content is present and non-blank
but whose cleaned main content, while non-empty, is strictly shorter than
`min_chunk_size`, emits no chunks at all; the single-chunk fallback only
applies to cleaned content of length at least `min_chunk_size`. -/
theorem create_chunks_from_item_short_content_empty
    (nfkd : List Char → List Char) (item : KnowledgeBaseItem)
    (mins maxs target : Nat) (st mc : List Char)
    (hmc : item.main_content = some mc)
    (hblank : ¬ (mc = [] ∨ pyStrip mc = []))
    (hlt : (clean_text_for_rag mc).length < mins) :
    create_chunks_from_item nfkd item mins maxs target st = [] := by
  unfold create_chunks_from_item
  rw [hmc]
  show (if mc = [] ∨ pyStrip mc = [] then
      if mins ≤ (pyStrip ("Page: ".toList ++ item.title ++ ". URL: ".toList ++ item.url)).length then
        [create_chunk_dict nfkd item 1
          ("Page: ".toList ++ item.title ++ ". URL: ".toList ++ item.url) st]
      else []
    else
      if numberChunks nfkd item st mins
          (split_text_into_chunks (clean_text_for_rag mc) target mins 200) 1 = [] ∧
         mins ≤ (pyStrip (clean_text_for_rag mc)).length then
        [create_chunk_dict nfkd item 1 (clean_text_for_rag mc) st]
      else
        numberChunks nfkd item st mins
          (split_text_into_chunks (clean_text_for_rag mc) target mins 200) 1) = []
  rw [if_neg hblank]
  have hmcne : mc ≠ [] := fun h => hblank (Or.inl h)
  have hstrip : pyStrip (clean_text_for_rag mc) = clean_text_for_rag mc := by
    rw [clean_text_for_rag, if_neg hmcne]
    exact stripP_idem pyIsSpace _
  have hsplit : split_text_into_chunks (clean_text_for_rag mc) target mins 200 = [] := by
    unfold split_text_into_chunks
    rw [if_pos (Or.inr (by rw [hstrip]; exact hlt))]
  rw [hsplit]
  have hnum : numberChunks nfkd item st mins [] 1 = [] := rfl
  rw [hnum]
  rw [if_neg]
  intro hand
  have := hand.2
  rw [hstrip] at this
  omega

/-- Witness for the amended C1 at the concrete short-content item. -/
theorem create_chunks_from_item_short_content_empty_witness :
    shortContentItem.main_content = some "short text".toList ∧
    (¬ ("short text".toList = [] ∨ pyStrip "short text".toList = [])) ∧
    (clean_text_for_rag "short text".toList).length < 50 ∧
    create_chunks_from_item id shortContentItem 50 2000 500 "page".toList = [] :=
  ⟨by decide, by decide, by decide,
   create_chunks_from_item_short_content_empty id shortContentItem 50 2000 500
     "page".toList "short text".toList (by decide) (by decide) (by decide)⟩

/-- The fixed list of error-page phrases of `is_valid_content`
(src/rag_scraping/scraping.py, lines 144-151). -/
def error_indicators : List (List Char) :=
  ["server encountered an internal error".toList,
   "misconfiguration and was unable to complete".toList,
   "contact the server administrator".toList,
   "error occurred".toList,
   "500 internal server error".toList,
   "503 service unavailable".toList]

/-- `is_valid_content` (src/rag_scraping/scraping.py, lines 130-154):
reject empty or short-after-stripping content, then reject content whose
lower-cased text contains any of the indicator phrases. -/
def is_valid_content (content : List Char) : Bool :=
  if content = [] ∨ (pyStrip content).length < 50 then false
  else ! (error_indicators.any (fun ind => pyContains (pyLower content) ind))

/-- A 59-character body that contains the phrase "page not found". -/
def pageNotFoundBody : List Char :=
  "page not found page not found page not found page not found".toList

/-- C5 counterexample: a 59-character body containing "page not found"
PASSES the content validator — "page not found" is not among the source's
`error_indicators`, so the claim that the validator fails such bodies is
false on the code. -/
theorem is_valid_content_page_not_found_counterexample :
    50 ≤ (pyStrip pageNotFoundBody).length ∧
    pyContains (pyLower pageNotFoundBody) "page not found".toList = true ∧
    is_valid_content pageNotFoundBody = true := by
  decide

/-- C5 amended: the content validator fails exactly the bodies whose
stripped length is below the 50-character threshold or whose case-folded
text contains one of the six phrases of `error_indicators` (a list that
includes "server encountered an internal error" and "503 service
unavailable" but not "page not found"); every other body succeeds. -/
theorem is_valid_content_iff (content : List Char) :
    is_valid_content content = false ↔
      ((pyStrip content).length < 50 ∨
       ∃ ind ∈ error_indicators, pyContains (pyLower content) ind = true) := by
  unfold is_valid_content
  by_cases hcond : content = [] ∨ (pyStrip content).length < 50
  · rw [if_pos hcond]
    constructor
    · intro _
      rcases hcond with h | h
      · subst h
        exact Or.inl (by decide)
      · exact Or.inl h
    · intro _
      rfl
  · rw [if_neg hcond]
    have hlen : ¬ ((pyStrip content).length < 50) := fun h => hcond (Or.inr h)
    rw [Bool.not_eq_false', List.any_eq_true]
    constructor
    · rintro ⟨ind, hmem, hp⟩
      exact Or.inr ⟨ind, hmem, hp⟩
    · rintro (hl | ⟨ind, hmem, hp⟩)
      · exact absurd hl hlen
      · exact ⟨ind, hmem, hp⟩

/-- Instantiation of the amended C5 at a body that contains an indicator
phrase. -/
theorem is_valid_content_iff_witness :
    is_valid_content
        "the server encountered an internal error and could not complete your request".toList
      = false :=
  (is_valid_content_iff
      "the server encountered an internal error and could not complete your request".toList).mpr
    (Or.inr ⟨"server encountered an internal error".toList, by decide, by decide⟩)

/-- The per-attempt crawl outcome of `scrape_with_retry`
(src/rag_scraping/scraping.py, lines 50-51): a successful `arun` call
yields a result with a `success` flag and an `html` body. -/
structure CrawlResult where
  success : Bool
  html : List Char
deriving DecidableEq

/-- The validity test of one attempt (src/rag_scraping/scraping.py, line
54): `result and result.success and result.html`.  An attempt is modelled
as `Option CrawlResult`, `none` standing for an exception or missing
result. -/
def attemptOk : Option CrawlResult → Bool
  | none => false
  | some r => r.success && !(r.html.isEmpty)

/-- The clamped delay lookup (src/rag_scraping/scraping.py, line 65):
`retry_delays[min(attempt, len(retry_delays) - 1)]`.  Python would raise
`IndexError` on an empty schedule; the `getD` default is unreachable for
the non-empty schedules the theorems assume. -/
def clampedDelay (delays : List Nat) (i : Nat) : Nat :=
  delays.getD (min i (delays.length - 1)) 0

/-- Observable outcome of a `scrape_with_retry` call: the returned crawl
result (or `none` after exhaustion, line 70), the number of attempts
performed, and the sequence of back-off sleeps (line 67). -/
structure RetryTrace where
  result : Option CrawlResult
  attempts : Nat
  sleeps : List Nat
deriving DecidableEq

/-- The `for attempt in range(max_retries + 1)` loop of
`scrape_with_retry` (src/rag_scraping/scraping.py, lines 45-68), with
remaining-iterations fuel; `i` is the current attempt index and `att`
supplies each attempt's outcome.  A valid result returns immediately with
no further sleep; a failed non-final attempt sleeps for the clamped delay
and retries; the final failed attempt ends the loop. -/
def retryLoop (att : Nat → Option CrawlResult) (maxR : Nat)
    (delays : List Nat) : Nat → Nat → RetryTrace
  | 0, i => ⟨none, i, []⟩
  | fuel + 1, i =>
    if attemptOk (att i) then ⟨att i, i + 1, []⟩
    else
      if i < maxR then
        match retryLoop att maxR delays fuel (i + 1) with
        | ⟨r, a, s⟩ => ⟨r, a, clampedDelay delays i :: s⟩
      else ⟨none, i + 1, []⟩

/-- `scrape_with_retry` (src/rag_scraping/scraping.py, lines 24-70): run
the attempt loop from index 0; `max_retries + 1` loop iterations. -/
def scrape_with_retry (att : Nat → Option CrawlResult) (max_retries : Nat)
    (retry_delays : List Nat) : RetryTrace :=
  retryLoop att max_retries retry_delays (max_retries + 1) 0

theorem retryLoop_all_fail (att : Nat → Option CrawlResult) (maxR : Nat)
    (delays : List Nat) (hfail : ∀ i, attemptOk (att i) = false) :
    ∀ fuel i, fuel = maxR + 1 - i → i ≤ maxR →
      retryLoop att maxR delays fuel i =
        ⟨none, maxR + 1, (List.range' i (maxR - i)).map (clampedDelay delays)⟩ := by
  intro fuel
  induction fuel with
  | zero =>
    intro i hfu hle
    omega
  | succ n ih =>
    intro i hfu hle
    rw [retryLoop]
    rw [if_neg (by rw [hfail i]; simp)]
    by_cases hi : i < maxR
    · rw [if_pos hi]
      rw [ih (i + 1) (by omega) (by omega)]
      have hr : maxR - i = (maxR - (i + 1)) + 1 := by omega
      rw [hr, List.range'_succ, List.map_cons]
    · rw [if_neg hi]
      have hieq : i = maxR := by omega
      subst hieq
      simp

/-- C3: when every attempt fails, `scrape_with_retry` performs exactly
`max_retries + 1` attempts, returns the terminal failure `none`, and
sleeps the clamped schedule delay after each non-final attempt (none after
the last); moreover the last schedule value is reused whenever the attempt
index reaches past the schedule.  At `max_retries = 2`,
`delays = [1, 2, 5]` this gives 3 attempts and sleeps `[1, 2]`, total 3
time units (see the witness). -/
theorem scrape_with_retry_all_fail (att : Nat → Option CrawlResult)
    (maxR : Nat) (delays : List Nat)
    (hfail : ∀ i, attemptOk (att i) = false) (hne : delays ≠ []) :
    scrape_with_retry att maxR delays =
      ⟨none, maxR + 1, (List.range maxR).map (clampedDelay delays)⟩ ∧
    (∀ i, delays.length ≤ i → clampedDelay delays i = delays.getLast hne) := by
  constructor
  · unfold scrape_with_retry
    rw [retryLoop_all_fail att maxR delays hfail (maxR + 1) 0 (by omega) (by omega)]
    rw [List.range_eq_range']
    simp
  · intro i hi
    have hlen : 0 < delays.length := List.length_pos.mpr hne
    unfold clampedDelay
    have hmin : min i (delays.length - 1) = delays.length - 1 := by omega
    rw [hmin]
    rw [List.getD_eq_getElem delays 0 (by omega)]
    rw [List.getLast_eq_getElem]

/-- Witness for C3 at the spec's example: `max_retries = 2`,
`delay_schedule = [1, 2, 5]`, every attempt failing: 3 attempts, terminal
failure, sleeps `[1, 2]`, total backoff `1 + 2 = 3`. -/
theorem scrape_with_retry_all_fail_witness :
    (∀ i : Nat, attemptOk ((fun _ => none) i) = false) ∧
    (([1, 2, 5] : List Nat) ≠ []) ∧
    (scrape_with_retry (fun _ => none) 2 [1, 2, 5] =
        ⟨none, 3, (List.range 2).map (clampedDelay [1, 2, 5])⟩ ∧
      (∀ i, ([1, 2, 5] : List Nat).length ≤ i →
        clampedDelay [1, 2, 5] i = ([1, 2, 5] : List Nat).getLast (by decide))) ∧
    (List.range 2).map (clampedDelay [1, 2, 5]) = [1, 2] ∧
    (([1, 2] : List Nat).sum = 3) :=
  ⟨fun _ => rfl, by decide,
   scrape_with_retry_all_fail (fun _ => none) 2 [1, 2, 5] (fun _ => rfl)
     (by decide),
   by decide, by decide⟩

/-- The content-level retry loop of `scrape_item_details`
(src/rag_scraping/scraping.py, lines 176-234), with remaining-iterations
fuel.  One attempt's try-body (fetch, parse, extract, validate, build the
item, lines 178-226) is abstracted into `outcome i : Option
KnowledgeBaseItem`: `some item` when the body completes and returns the
item, `none` when any step raises (HTTP failure line 182, invalid content
line 192, or any other exception), which the `except` arm catches. -/
def attemptLoop (outcome : Nat → Option KnowledgeBaseItem) :
    Nat → Nat → Option KnowledgeBaseItem
  | 0, _ => none
  | fuel + 1, i =>
    match outcome i with
    | some it => some it
    | none => attemptLoop outcome fuel (i + 1)

/-- `scrape_item_details` (src/rag_scraping/scraping.py, lines 157-242):
run the content-level retry loop for `max_retries + 1` attempts; when no
attempt produces an item, return — never raise — the sentinel failed item
of lines 237-242, whose content is
`f"Failed to scrape after \x7bmax_retries + 1\x7d attempts"`. -/
def scrape_item_details (outcome : Nat → Option KnowledgeBaseItem)
    (title url : List Char) (item_type : Option (List Char))
    (max_retries : Nat) : KnowledgeBaseItem :=
  match attemptLoop outcome (max_retries + 1) 0 with
  | some it => it
  | none =>
    ⟨title, url, none, item_type,
     some ("Failed to scrape after ".toList ++
       (Nat.repr (max_retries + 1)).toList ++ " attempts".toList),
     [], [], [], [], [], []⟩

/-- C9: when every attempt within the retry budget fails, the item-level
scrape returns a terminal knowledge base item whose content is the
sentinel string "Failed to scrape after N attempts" with
`N = max_retries + 1`; being a total function of the attempt outcomes, it
propagates no exception past its boundary. -/
theorem scrape_item_details_all_fail
    (outcome : Nat → Option KnowledgeBaseItem) (title url : List Char)
    (item_type : Option (List Char)) (maxR : Nat)
    (hfail : ∀ i, i ≤ maxR → outcome i = none) :
    scrape_item_details outcome title url item_type maxR =
      ⟨title, url, none, item_type,
       some ("Failed to scrape after ".toList ++
         (Nat.repr (maxR + 1)).toList ++ " attempts".toList),
       [], [], [], [], [], []⟩ := by
  unfold scrape_item_details
  have hloop : ∀ fuel i, fuel + i ≤ maxR + 1 →
      attemptLoop outcome fuel i = none := by
    intro fuel
    induction fuel with
    | zero => intro i _; rfl
    | succ n ih =>
      intro i hle
      rw [attemptLoop, hfail i (by omega)]
      exact ih (i + 1) (by omega)
  rw [hloop (maxR + 1) 0 (by omega)]

/-- Witness for C9 at `max_retries = 2` with every attempt failing: the
returned item carries the sentinel "Failed to scrape after 3 attempts". -/
theorem scrape_item_details_all_fail_witness :
    (∀ i : Nat, i ≤ 2 → (fun _ => (none : Option KnowledgeBaseItem)) i = none) ∧
    scrape_item_details (fun _ => none) "T".toList "u".toList none 2 =
      ⟨"T".toList, "u".toList, none, none,
       some "Failed to scrape after 3 attempts".toList,
       [], [], [], [], [], []⟩ :=
  ⟨fun _ _ => rfl, by
    rw [scrape_item_details_all_fail (fun _ => none) "T".toList "u".toList
      none 2 (fun _ _ => rfl)]
    decide⟩

/-- The extraction-strategy tags of `_extract_content_fallback`
(src/rag_scraping/pages.py, lines 533-616). -/
inductive ExtractMethod where
  | article
  | mainContent
  | entryContent
  | postContent
  | paragraphs
  | textDivs
  | allText
deriving DecidableEq

/-- The `method_priority` dict of `_extract_content_fallback`
(src/rag_scraping/pages.py, lines 599-607); its `.get(x, 0)` default is
unreachable since every tag is a key of the dict. -/
def methodPriority : ExtractMethod → Nat
  | .article => 1
  | .entryContent => 2
  | .postContent => 3
  | .mainContent => 4
  | .paragraphs => 5
  | .textDivs => 6
  | .allText => 7

/-- The sort-order comparison of `_extract_content_fallback`
(src/rag_scraping/pages.py, line 609): Python sorts ascending by key
`(len(text), -priority)` and then reverses (`reverse=True`); `candLe x y`
states that `x` may come no later than `y` in the resulting descending
order. -/
def candLe (x y : ExtractMethod × List Char) : Bool :=
  decide (y.2.length < x.2.length ∨
    (x.2.length = y.2.length ∧ methodPriority x.1 ≤ methodPriority y.1))

/-- The candidate-selection step of `_extract_content_fallback`
(src/rag_scraping/pages.py, lines 596-616), over an arbitrary candidate
list (the construction of candidates from the parsed document, lines
538-594, involves the HTML collaborator and is abstracted into the input):
sort by `(length, -priority)` descending — a stable merge sort models
Python's stable `list.sort` — and return the first candidate's text, or
the empty string when there is none. -/
def extract_content_fallback_select
    (cands : List (ExtractMethod × List Char)) : List Char :=
  match cands.mergeSort candLe with
  | [] => []
  | best :: _ => best.2

theorem candLe_trans (a b c : ExtractMethod × List Char)
    (hab : candLe a b) (hbc : candLe b c) : candLe a c := by
  simp only [candLe, decide_eq_true_eq] at hab hbc ⊢
  omega

theorem candLe_total (a b : ExtractMethod × List Char) :
    candLe a b || candLe b a := by
  simp only [candLe, Bool.or_eq_true, decide_eq_true_eq]
  omega

/-- C6: on a non-empty candidate list the selection step returns the text
of a candidate that maximises `(length, -priority)` — every other
candidate is either strictly shorter, or of equal length with an equal or
larger (structurally lower-priority) strategy number — and on an empty
candidate list it returns the empty string. -/
theorem extract_content_fallback_select_max
    (cands : List (ExtractMethod × List Char)) :
    extract_content_fallback_select ([] : List (ExtractMethod × List Char)) = [] ∧
    (cands ≠ [] →
      ∃ best ∈ cands, extract_content_fallback_select cands = best.2 ∧
        ∀ x ∈ cands, x.2.length < best.2.length ∨
          (x.2.length = best.2.length ∧
           methodPriority best.1 ≤ methodPriority x.1)) := by
  constructor
  · unfold extract_content_fallback_select
    rw [List.mergeSort_nil]
  · intro hne
    have hperm := List.mergeSort_perm cands candLe
    have hsorted := List.sorted_mergeSort candLe_trans candLe_total cands
    cases hms : cands.mergeSort candLe with
    | nil =>
      rw [hms] at hperm
      exact absurd (hperm.symm.eq_nil) hne
    | cons best rest =>
      refine ⟨best, ?_, ?_, ?_⟩
      · exact hperm.subset (hms ▸ List.mem_cons_self best rest)
      · unfold extract_content_fallback_select
        rw [hms]
      · intro x hx
        have hx' : x ∈ best :: rest := by
          rw [← hms]
          exact hperm.symm.subset hx
        rcases List.mem_cons.mp hx' with rfl | hxr
        · right
          exact ⟨rfl, le_rfl⟩
        · have hle : candLe best x := by
            rw [hms] at hsorted
            exact (List.pairwise_cons.mp hsorted).1 x hxr
          simp only [candLe, decide_eq_true_eq] at hle
          rcases hle with hlt | ⟨heq, hpri⟩
          · exact Or.inl hlt
          · exact Or.inr ⟨heq.symm, hpri⟩

/-- Spec example for C6: a priority-2 candidate of length 120 and a
priority-1 candidate of length 100. -/
def exampleCands : List (ExtractMethod × List Char) :=
  [(ExtractMethod.article, List.replicate 100 'a'),
   (ExtractMethod.entryContent, List.replicate 120 'b')]

/-- Witness for C6 at the spec's example candidates. -/
theorem extract_content_fallback_select_max_witness :
    exampleCands ≠ [] ∧
    (∃ best ∈ exampleCands,
      extract_content_fallback_select exampleCands = best.2 ∧
      ∀ x ∈ exampleCands, x.2.length < best.2.length ∨
        (x.2.length = best.2.length ∧
         methodPriority best.1 ≤ methodPriority x.1)) :=
  ⟨by decide,
   (extract_content_fallback_select_max exampleCands).2 (by decide)⟩

/-- A fragment of the PDF oversize-split pass
(src/rag_scraping/pdfs.py, lines 150-217): the fragment text and the image
references copied along with it (`chunk_images.copy()`). -/
structure PdfFrag where
  text : List Char
  images : List (List Char)
deriving DecidableEq

/-- The word-group loop of `_create_rag_ready_chunks`
(src/rag_scraping/pdfs.py, lines 186-204), entered when a single sentence
is too long: accumulate whitespace-split words while
`len(current_word_group + " " + word)` stays at 1500 or below, emitting
the stripped group on overflow, plus the trailing group after the loop. -/
def wordLoop (images : List (List Char)) :
    List (List Char) → List Char → List PdfFrag
  | [], curw => if curw ≠ [] then [⟨pyStrip curw, images⟩] else []
  | w :: ws, curw =>
    if 1500 < (curw ++ ' ' :: w).length then
      (if curw ≠ [] then [⟨pyStrip curw, images⟩] else []) ++ wordLoop images ws w
    else
      wordLoop images ws (if curw ≠ [] then curw ++ ' ' :: w else w)

/-- The sentence-group loop of `_create_rag_ready_chunks`
(src/rag_scraping/pdfs.py, lines 173-212): each stripped sentence is
skipped when empty; when `len(current_sentence_group + sentence)` exceeds
1500 a non-empty running group is emitted (stripped) and the sentence
starts the next group, while with an empty running group the sentence is
word-split; otherwise the sentence is appended to the group with a joining
space.  The trailing group is emitted after the loop (lines 208-212). -/
def sentLoop (images : List (List Char)) :
    List (List Char) → List Char → List PdfFrag
  | [], cur => if cur ≠ [] then [⟨pyStrip cur, images⟩] else []
  | stc :: rest, cur =>
    if pyStrip stc = [] then sentLoop images rest cur
    else
      if 1500 < (cur ++ pyStrip stc).length then
        if cur ≠ [] then
          ⟨pyStrip cur, images⟩ :: sentLoop images rest (pyStrip stc)
        else
          wordLoop images (pySplitWs (pyStrip stc)) [] ++ sentLoop images rest cur
      else
        sentLoop images rest (if cur ≠ [] then cur ++ ' ' :: pyStrip stc else pyStrip stc)

/-- The per-chunk size-constraint step of `_create_rag_ready_chunks`
(src/rag_scraping/pdfs.py, lines 167-217): a cleaned chunk text longer
than 2000 characters is split at sentence terminators and grouped; any
other chunk is passed through as a single fragment. -/
def processChunkSize (chunk_text : List Char) (images : List (List Char)) :
    List PdfFrag :=
  if 2000 < chunk_text.length then
    sentLoop images (reSplitTerm chunk_text) []
  else
    [⟨chunk_text, images⟩]

/-- A chunk text over 2000 characters: a 700-character sentence, an
800-character sentence, and a 2000-character sentence. -/
def oversizedChunkText : List Char :=
  List.replicate 700 'a' ++ '.' :: (List.replicate 800 'b' ++ '.' :: List.replicate 2000 'c')

theorem stripP_eq_self_of_all {p : Char → Bool} {l : List Char}
    (h : ∀ a ∈ l, p a = false) : stripP p l = l :=
  stripP_eq_self
    (fun c hc => h c (by
      obtain ⟨ys, hys⟩ := List.head?_eq_some_iff.mp hc
      exact hys ▸ List.mem_cons_self c ys))
    (fun c hc => h c (List.mem_of_getLast?_eq_some hc))

theorem takeWhile_append_all {p : Char → Bool} {A y : List Char}
    (h : ∀ a ∈ A, p a = true) : (A ++ y).takeWhile p = A ++ y.takeWhile p := by
  induction A with
  | nil => simp
  | cons a as ih =>
    simp only [List.cons_append]
    rw [List.takeWhile_cons_of_pos (h a (List.mem_cons_self a as))]
    rw [ih (fun x hx => h x (List.mem_cons_of_mem _ hx))]

theorem dropWhile_append_all {p : Char → Bool} {A y : List Char}
    (h : ∀ a ∈ A, p a = true) : (A ++ y).dropWhile p = y.dropWhile p := by
  induction A with
  | nil => simp
  | cons a as ih =>
    simp only [List.cons_append]
    rw [List.dropWhile_cons_of_pos (h a (List.mem_cons_self a as))]
    exact ih (fun x hx => h x (List.mem_cons_of_mem _ hx))

theorem reSplitTermF_congr :
    ∀ f1 f2 (l : List Char), l.length ≤ f1 → l.length ≤ f2 →
      reSplitTermF f1 l = reSplitTermF f2 l := by
  intro f1
  induction f1 with
  | zero =>
    intro f2 l h1 _
    have hl : l = [] := List.eq_nil_of_length_eq_zero (by omega)
    subst hl
    cases f2 <;> rfl
  | succ f ih =>
    intro f2 l h1 h2
    cases hl : l with
    | nil =>
      cases f2 <;> rfl
    | cons c cs' =>
      subst hl
      cases f2 with
      | zero => simp at h2
      | succ g =>
        simp only [reSplitTermF]
        cases hd : (c :: cs').dropWhile (fun x => !isSentTerm x) with
        | nil => rfl
        | cons x cs =>
          simp only
          congr 1
          have hdl : (x :: cs).length ≤ (c :: cs').length :=
            hd ▸ len_dropWhile_le _ (c :: cs')
          have hcs := len_dropWhile_le isSentTerm cs
          simp only [List.length_cons] at hdl h1 h2
          exact ih g _ (by omega) (by omega)

theorem reSplitTerm_eq (l : List Char) :
    reSplitTerm l =
      match l.dropWhile (fun c => !isSentTerm c) with
      | [] => [l.takeWhile (fun c => !isSentTerm c)]
      | _ :: cs =>
        l.takeWhile (fun c => !isSentTerm c) ::
          reSplitTerm (cs.dropWhile isSentTerm) := by
  cases hl : l with
  | nil => rfl
  | cons c cs' =>
    show reSplitTermF (cs'.length + 1) (c :: cs') = _
    simp only [reSplitTermF]
    cases hd : (c :: cs').dropWhile (fun x => !isSentTerm x) with
    | nil => rfl
    | cons x cs =>
      simp only
      congr 1
      have hdl : (x :: cs).length ≤ (c :: cs').length :=
        hd ▸ len_dropWhile_le _ (c :: cs')
      have hcs := len_dropWhile_le isSentTerm cs
      simp only [List.length_cons] at hdl
      exact reSplitTermF_congr cs'.length _ _ (by omega) le_rfl

theorem reSplitTerm_glue (A X : List Char)
    (hA : ∀ a ∈ A, isSentTerm a = false)
    (hX : ∀ c, X.head? = some c → isSentTerm c = false) :
    reSplitTerm (A ++ '.' :: X) = A :: reSplitTerm X := by
  rw [reSplitTerm_eq]
  have hdall : ∀ a ∈ A, (fun c => !isSentTerm c) a = true := by
    intro a ha
    simp [hA a ha]
  have hdrop : (A ++ '.' :: X).dropWhile (fun c => !isSentTerm c) = '.' :: X := by
    rw [dropWhile_append_all hdall]
    rw [List.dropWhile_cons_of_neg]
    simp [isSentTerm]
  rw [hdrop]
  show (A ++ '.' :: X).takeWhile (fun c => !isSentTerm c) ::
      reSplitTerm (X.dropWhile isSentTerm) = A :: reSplitTerm X
  have htake : (A ++ '.' :: X).takeWhile (fun c => !isSentTerm c) = A := by
    rw [takeWhile_append_all hdall]
    rw [List.takeWhile_cons_of_neg]
    · simp
    · simp [isSentTerm]
  have hXdrop : X.dropWhile isSentTerm = X :=
    dropWhile_eq_self_of_head? hX
  rw [htake, hXdrop]

theorem reSplitTerm_pure (C : List Char)
    (hC : ∀ a ∈ C, isSentTerm a = false) : reSplitTerm C = [C] := by
  rw [reSplitTerm_eq]
  have hdrop : C.dropWhile (fun c => !isSentTerm c) = [] :=
    List.dropWhile_eq_nil_iff.mpr (fun x hx => by simp [hC x hx])
  rw [hdrop]
  show [C.takeWhile (fun c => !isSentTerm c)] = [C]
  rw [List.takeWhile_eq_self_iff.mpr (fun x hx => by simp [hC x hx])]

theorem head?_replicate_append {n : Nat} (c : Char) (y : List Char)
    (h : 0 < n) : (List.replicate n c ++ y).head? = some c := by
  cases n with
  | zero => omega
  | succ m => rw [List.replicate_succ, List.cons_append, List.head?_cons]

theorem head?_replicate_pos {n : Nat} (c : Char) (h : 0 < n) :
    (List.replicate n c).head? = some c := by
  rw [List.head?_replicate, if_neg (by omega)]

theorem oversized_reSplitTerm_eval :
    reSplitTerm oversizedChunkText =
      [List.replicate 700 'a', List.replicate 800 'b',
       List.replicate 2000 'c'] := by
  have hXc : ∀ c, (List.replicate 2000 'c').head? = some c →
      isSentTerm c = false := by
    intro c hc
    rw [@head?_replicate_pos 2000 'c' (by omega)] at hc
    injection hc with hc
    rw [← hc]
    rfl
  have hXb : ∀ c,
      (List.replicate 800 'b' ++ '.' :: List.replicate 2000 'c').head? = some c →
      isSentTerm c = false := by
    intro c hc
    rw [@head?_replicate_append 800 'b' _ (by omega)] at hc
    injection hc with hc
    rw [← hc]
    rfl
  have h1 : reSplitTerm (List.replicate 2000 'c') = [List.replicate 2000 'c'] :=
    reSplitTerm_pure _ (fun a ha => by rw [List.eq_of_mem_replicate ha]; rfl)
  have h2 : reSplitTerm (List.replicate 800 'b' ++ '.' :: List.replicate 2000 'c') =
      List.replicate 800 'b' :: reSplitTerm (List.replicate 2000 'c') :=
    reSplitTerm_glue (List.replicate 800 'b') (List.replicate 2000 'c')
      (fun a ha => by rw [List.eq_of_mem_replicate ha]; rfl) hXc
  have h3 : reSplitTerm oversizedChunkText =
      List.replicate 700 'a' ::
        reSplitTerm (List.replicate 800 'b' ++ '.' :: List.replicate 2000 'c') :=
    reSplitTerm_glue (List.replicate 700 'a')
      (List.replicate 800 'b' ++ '.' :: List.replicate 2000 'c')
      (fun a ha => by rw [List.eq_of_mem_replicate ha]; rfl) hXb
  rw [h3, h2, h1]

theorem pyStrip_replicate_a (n : Nat) :
    pyStrip (List.replicate n 'a') = List.replicate n 'a' :=
  stripP_eq_self_of_all (fun a ha => by rw [List.eq_of_mem_replicate ha]; rfl)

theorem pyStrip_replicate_b (n : Nat) :
    pyStrip (List.replicate n 'b') = List.replicate n 'b' :=
  stripP_eq_self_of_all (fun a ha => by rw [List.eq_of_mem_replicate ha]; rfl)

theorem pyStrip_replicate_c (n : Nat) :
    pyStrip (List.replicate n 'c') = List.replicate n 'c' :=
  stripP_eq_self_of_all (fun a ha => by rw [List.eq_of_mem_replicate ha]; rfl)

theorem pyStrip_group_ab :
    pyStrip (List.replicate 700 'a' ++ ' ' :: List.replicate 800 'b') =
      List.replicate 700 'a' ++ ' ' :: List.replicate 800 'b' := by
  apply stripP_eq_self
  · intro c hc
    rw [@head?_replicate_append 700 'a' _ (by omega)] at hc
    injection hc with hc
    rw [← hc]
    rfl
  · intro c hc
    rw [List.getLast?_append] at hc
    rw [show (' ' :: List.replicate 800 'b') = [' '] ++ List.replicate 800 'b'
      from rfl] at hc
    rw [List.getLast?_append, List.getLast?_replicate, if_neg (by omega)] at hc
    rw [show ((some 'b').or ([' '] : List Char).getLast?).or
        (List.replicate 700 'a').getLast? = some 'b' from rfl] at hc
    injection hc with hc
    rw [← hc]
    rfl

theorem replicate_char_ne_nil {n : Nat} (c : Char) (h : 0 < n) :
    List.replicate n c ≠ [] := by
  intro he
  have hl := congrArg List.length he
  simp only [List.length_replicate, List.length_nil] at hl
  omega

theorem processChunkSize_oversized_eval :
    processChunkSize oversizedChunkText [] =
      [⟨List.replicate 700 'a' ++ ' ' :: List.replicate 800 'b', []⟩,
       ⟨List.replicate 2000 'c', []⟩] := by
  have hlen : oversizedChunkText.length = 3502 := by
    unfold oversizedChunkText
    simp only [List.length_append, List.length_cons, List.length_replicate]
  unfold processChunkSize
  rw [if_pos (by omega)]
  rw [oversized_reSplitTerm_eval]
  rw [sentLoop, pyStrip_replicate_a]
  rw [if_neg (replicate_char_ne_nil 'a' (by omega))]
  rw [if_neg (by
    simp only [List.nil_append, List.length_replicate]
    omega)]
  rw [if_neg (by simp)]
  rw [sentLoop, pyStrip_replicate_b]
  rw [if_neg (replicate_char_ne_nil 'b' (by omega))]
  rw [if_neg (by
    simp only [List.length_append, List.length_replicate]
    omega)]
  rw [if_pos (replicate_char_ne_nil 'a' (by omega))]
  rw [sentLoop, pyStrip_replicate_c]
  rw [if_neg (replicate_char_ne_nil 'c' (by omega))]
  rw [if_pos (by
    simp only [List.length_append, List.length_cons, List.length_replicate]
    omega)]
  rw [if_pos (by
    intro he
    have hl := congrArg List.length he
    simp only [List.length_append, List.length_cons, List.length_replicate,
      List.length_nil] at hl
    omega)]
  rw [sentLoop]
  rw [if_pos (replicate_char_ne_nil 'c' (by omega))]
  rw [pyStrip_replicate_c, pyStrip_group_ab]

/-- C8 counterexample: the oversize-split pass applied to a 3502-character
chunk made of a 700-character, an 800-character and a 2000-character
sentence emits fragments of 1501 and 2000 characters — the claimed
1500-character bound fails both by the off-by-one of the joining space
(`len(group + sentence)` is checked without the space that is then added,
line 178 versus line 206) and because an over-long sentence that follows a
non-empty group is emitted whole (line 184), the word-split applying only
when the group is empty. -/
theorem pdf_oversize_split_counterexample :
    2000 < oversizedChunkText.length ∧
    (processChunkSize oversizedChunkText []).map (fun f => f.text.length) =
      [1501, 2000] ∧
    ∃ f ∈ processChunkSize oversizedChunkText [], 1500 < f.text.length := by
  have hlen : oversizedChunkText.length = 3502 := by
    unfold oversizedChunkText
    simp only [List.length_append, List.length_cons, List.length_replicate]
  refine ⟨by omega, ?_, ?_⟩
  · rw [processChunkSize_oversized_eval]
    simp only [List.map_cons, List.map_nil, List.length_append,
      List.length_cons, List.length_replicate]
  · rw [processChunkSize_oversized_eval]
    refine ⟨⟨List.replicate 2000 'c', []⟩,
      List.mem_cons_of_mem _ (List.mem_cons_self _ _), ?_⟩
    simp only [List.length_replicate]
    omega

/-- C8 amended: for a chunk text longer than 2000 characters all of whose
stripped sentences are at most 1500 characters, every fragment emitted by
the oversize-split pass has at most 1501 characters (the extra character
coming from the joining space the accumulation check does not count). -/
theorem processChunkSize_bounded (chunk_text : List Char)
    (images : List (List Char)) (hbig : 2000 < chunk_text.length)
    (hsent : ∀ s ∈ reSplitTerm chunk_text, (pyStrip s).length ≤ 1500) :
    ∀ f ∈ processChunkSize chunk_text images, f.text.length ≤ 1501 := by
  unfold processChunkSize
  rw [if_pos hbig]
  have hloop : ∀ sents cur, (∀ s ∈ sents, (pyStrip s).length ≤ 1500) →
      cur.length ≤ 1501 →
      ∀ f ∈ sentLoop images sents cur, f.text.length ≤ 1501 := by
    intro sents
    induction sents with
    | nil =>
      intro cur _ hcur f hf
      rw [sentLoop] at hf
      split at hf
      · rcases List.mem_singleton.mp hf with rfl
        have h1 : (pyStrip cur).length ≤ cur.length := stripP_length_le pyIsSpace cur
        show (pyStrip cur).length ≤ 1501
        omega
      · cases hf
    | cons stc rest ih =>
      intro cur hs hcur f hf
      have hslen : (pyStrip stc).length ≤ 1500 := hs stc (List.mem_cons_self _ _)
      have hrest : ∀ s ∈ rest, (pyStrip s).length ≤ 1500 :=
        fun s hsm => hs s (List.mem_cons_of_mem _ hsm)
      rw [sentLoop] at hf
      by_cases hempty : pyStrip stc = []
      · rw [if_pos hempty] at hf
        exact ih cur hrest hcur f hf
      · rw [if_neg hempty] at hf
        by_cases hover : 1500 < (cur ++ pyStrip stc).length
        · rw [if_pos hover] at hf
          by_cases hcne : cur ≠ []
          · rw [if_pos hcne] at hf
            rcases List.mem_cons.mp hf with rfl | hrec
            · have h1 : (pyStrip cur).length ≤ cur.length := stripP_length_le pyIsSpace cur
              show (pyStrip cur).length ≤ 1501
              omega
            · exact ih (pyStrip stc) hrest (by omega) f hrec
          · rw [if_neg hcne] at hf
            have hcnil : cur = [] := not_not.mp hcne
            rw [hcnil] at hover
            simp only [List.nil_append] at hover
            omega
        · rw [if_neg hover] at hf
          rw [List.length_append] at hover
          by_cases hcne : cur ≠ []
          · rw [if_pos hcne] at hf
            refine ih _ hrest ?_ f hf
            simp only [List.length_append, List.length_cons]
            omega
          · rw [if_neg hcne] at hf
            exact ih _ hrest (by omega) f hf
  exact hloop (reSplitTerm chunk_text) [] hsent (by simp)

/-- A chunk text over 2000 characters whose sentences are 1000 and 1200
characters, both within the 1500-character sentence bound. -/
def boundedSentencesText : List Char :=
  List.replicate 1000 'a' ++ '.' :: List.replicate 1200 'b'

theorem boundedSentencesText_reSplitTerm_eval :
    reSplitTerm boundedSentencesText =
      [List.replicate 1000 'a', List.replicate 1200 'b'] := by
  have hXb2 : ∀ c, (List.replicate 1200 'b').head? = some c →
      isSentTerm c = false := by
    intro c hc
    rw [@head?_replicate_pos 1200 'b' (by omega)] at hc
    injection hc with hc
    rw [← hc]
    rfl
  have h1 : reSplitTerm (List.replicate 1200 'b') = [List.replicate 1200 'b'] :=
    reSplitTerm_pure _ (fun a ha => by rw [List.eq_of_mem_replicate ha]; rfl)
  have h2 : reSplitTerm boundedSentencesText =
      List.replicate 1000 'a' :: reSplitTerm (List.replicate 1200 'b') :=
    reSplitTerm_glue (List.replicate 1000 'a') (List.replicate 1200 'b')
      (fun a ha => by rw [List.eq_of_mem_replicate ha]; rfl) hXb2
  rw [h2, h1]

theorem boundedSentencesText_len : 2000 < boundedSentencesText.length := by
  unfold boundedSentencesText
  simp only [List.length_append, List.length_cons, List.length_replicate]
  omega

theorem boundedSentencesText_sentences :
    ∀ s ∈ reSplitTerm boundedSentencesText, (pyStrip s).length ≤ 1500 := by
  rw [boundedSentencesText_reSplitTerm_eval]
  intro s hs
  rcases List.mem_cons.mp hs with rfl | hs2
  · rw [pyStrip_replicate_a]
    simp only [List.length_replicate]
    omega
  · rcases List.mem_singleton.mp hs2 with rfl
    rw [pyStrip_replicate_b]
    simp only [List.length_replicate]
    omega

/-- Witness for the amended C8 at a concrete oversized chunk with bounded
sentences. -/
theorem processChunkSize_bounded_witness :
    2000 < boundedSentencesText.length ∧
    (∀ s ∈ reSplitTerm boundedSentencesText, (pyStrip s).length ≤ 1500) ∧
    ∀ f ∈ processChunkSize boundedSentencesText [], f.text.length ≤ 1501 :=
  ⟨boundedSentencesText_len, boundedSentencesText_sentences,
   processChunkSize_bounded boundedSentencesText []
     boundedSentencesText_len boundedSentencesText_sentences⟩

end RagScraping
